import Mathlib

/-
Verification of the qa-store question/answer knowledge base.

The development shallowly embeds the code of `src/qa_store/qa_kb.py`,
`src/qa_store/qa_system.py` and `src/qa_store/helpers.py`.  The external
similarity store (Chroma) is modelled as a list of documents together with
an abstract embedding-distance function `Dist`; its `query` operation
returns the nearest documents (ascending distance, ties broken by insertion
order), mirroring the store's documented behaviour.  The external
completion service is modelled as an oracle.  The tree store
(`qa_tree.py`, class `QuestionAnswerTree`) is not part of the sources and
is modelled from the specification where needed.
-/

namespace QAStore

/-- Metadata values storable in the similarity store: strings, integers
and booleans (Chroma metadata cannot hold null values). -/
inductive MValue where
  | str (s : String)
  | int (n : Int)
  | bool (b : Bool)
deriving DecidableEq, Repr

/-- A metadata dictionary, as an insertion-ordered association list
mirroring a Python dict. -/
abbrev Metadata := List (String × MValue)

/-- Python dict assignment `metadata["answer"] = v`: replace the value in
place if the key exists (keeping its position), else append the key at the
end. -/
def setAnswer : Metadata → MValue → Metadata
  | [], v => [("answer", v)]
  | (k, w) :: rest, v =>
    if k = "answer" then ("answer", v) :: rest else (k, w) :: setAnswer rest v

/-- One document of the similarity-store collection: document id, document
text and metadata dictionary. -/
structure Entry where
  eid : String
  doc : String
  meta : Metadata
deriving DecidableEq, Repr

/-- The embedding distance of the external similarity store: the native
distance between a query text and a stored document text (lower is
closer).  It is a fixed function of the two texts, reflecting a
deterministic embedding model. -/
abbrev Dist := String → String → Rat

/-- The `where` metadata filter of the store: equality on every key of the
filter dictionary. -/
def matchesFilter (filt : Metadata) (e : Entry) : Bool :=
  filt.all (fun kv => e.meta.lookup kv.1 == some kv.2)

/-- Select the entry nearest to the query (the first one attaining the
minimal value of `f`), returning it together with the remaining entries. -/
def selectNearest (f : Entry → Rat) : List Entry → Option (Entry × List Entry)
  | [] => none
  | e :: rest =>
    match selectNearest f rest with
    | none => some (e, [])
    | some (m, rest') => if f e ≤ f m then some (e, rest) else some (m, e :: rest')

/-- The `n` entries nearest to the query, nearest first. -/
def nearestK (f : Entry → Rat) : Nat → List Entry → List Entry
  | 0, _ => []
  | n + 1, l =>
    match selectNearest f l with
    | none => []
    | some (m, rest) => m :: nearestK f n rest

/-- `collection.query(query_texts=[q], n_results=n, where=filt)` of the
external similarity store: filter by metadata, then return the `n`
documents nearest to the query text, ascending by distance with ties
broken by insertion order. -/
def chromaQuery (dist : Dist) (store : List Entry) (q : String) (n : Nat)
    (filt : Option Metadata) : List Entry :=
  nearestK (fun e => dist q e.doc) n
    (match filt with
     | some f => store.filter (matchesFilter f)
     | none => store)

/-- One element of the result list of `QuestionAnswerKB.query`: question
text, answer metadata value, remaining metadata and similarity score. -/
structure QueryResult where
  question : String
  answer : Option MValue
  metadata : Metadata
  similarity : Rat
deriving DecidableEq, Repr

/-- Conversion of one raw hit into a result dict (qa_kb.py lines 314-328):
the answer is read from the metadata, the remaining metadata keys are kept,
and the similarity is `1 - distance`. -/
def toResult (dist : Dist) (q : String) (e : Entry) : QueryResult :=
  { question := e.doc
    answer := e.meta.lookup "answer"
    metadata := e.meta.filter (fun kv => kv.1 != "answer")
    similarity := 1 - dist q e.doc }

/-- The pooled hits of `QuestionAnswerKB.query` (`all_results`): one
similarity-store query per query text, results collected in encounter
order. -/
def pooledResults (dist : Dist) (store : List Entry) (n : Nat)
    (filt : Option Metadata) (questions : List String) : List QueryResult :=
  questions.flatMap (fun q => (chromaQuery dist store q n filt).map (toResult dist q))

/-- The deduplication loop of `QuestionAnswerKB.query` (qa_kb.py lines
330-336): keep a hit only when its answer value has not been seen yet. -/
def dedupByAnswer : List QueryResult → List (Option MValue) → List QueryResult
  | [], _ => []
  | r :: rest, seen =>
    if r.answer ∈ seen then dedupByAnswer rest seen
    else r :: dedupByAnswer rest (r.answer :: seen)

/-- The sort key of `QuestionAnswerKB.query`'s final sort: descending by
similarity (`a` may come before `b` iff `b`'s similarity is at most
`a`'s). -/
def simGE (a b : QueryResult) : Prop := b.similarity ≤ a.similarity

instance : DecidableRel simGE :=
  fun a b => inferInstanceAs (Decidable (b.similarity ≤ a.similarity))

instance : IsTotal QueryResult simGE :=
  ⟨fun a b => le_total b.similarity a.similarity⟩

instance : IsTrans QueryResult simGE :=
  ⟨fun _ _ _ h1 h2 => le_trans h2 h1⟩

/-- The merge phase of `QuestionAnswerKB.query` (qa_kb.py lines 300-346),
given the selected list of query texts: pool one similarity query per
text, deduplicate by answer value keeping the first-encountered hit, sort
descending by similarity (Python's stable sort) and truncate to
`n_results`. -/
def kbQueryFrom (dist : Dist) (store : List Entry) (n : Nat)
    (filt : Option Metadata) (questions : List String) : List QueryResult :=
  (List.insertionSort simGE
    (dedupByAnswer (pooledResults dist store n filt questions) [])).take n

/-- The `question` argument of `query` and `add_qa`: a single string or a
list of strings (Python `str | list[str]`). -/
inductive QInput where
  | str (s : String)
  | list (l : List String)
deriving DecidableEq, Repr

/-- The reworded phrasings produced by the external completion service for
a question and a requested count (the stripped response lines). -/
abbrev Reword := String → Nat → List String

/-- `QuestionAnswerKB.generate_rewordings`: `[question]` when
`num_rewordings = 0`, else the original question followed by the
completion service's rewordings.  (The whitespace-stripping of the
response lines is absorbed into the oracle.) -/
def generate_rewordings (rw : Reword) (question : String) (num_rewordings : Nat) :
    List String :=
  if num_rewordings = 0 then [question] else question :: rw question num_rewordings

/-- The query-set selection at the top of `QuestionAnswerKB.query`
(qa_kb.py lines 293-298): a string with `num_rewordings > 0` fans out via
`generate_rewordings`, a list with `num_rewordings > 0` is used verbatim,
and any other combination is wrapped whole into a one-element list. -/
def selectQuestions (rw : Reword) (question : QInput) (num_rewordings : Nat) :
    List QInput :=
  match question with
  | QInput.str q =>
    if num_rewordings > 0 then (generate_rewordings rw q num_rewordings).map QInput.str
    else [QInput.str q]
  | QInput.list qs =>
    if num_rewordings > 0 then qs.map QInput.str
    else [QInput.list qs]

/-- A parsed JSON value, the output of the external `json.loads`. -/
inductive JValue where
  | jnull
  | jbool (b : Bool)
  | jnum (q : Rat)
  | jstr (s : String)
  | jarr (l : List JValue)
  | jobj (fields : List (String × JValue))

/-- The external JSON parser (`json.loads`); `none` models a parse failure
(a raised `json.JSONDecodeError`). -/
abbrev JsonParse := String → Option JValue

/-- `helpers.get_json_list`: parse the text, require a dict, and take the
value under the dict's first key; a list value is returned as is, while a
non-list value makes the whole dict be wrapped into a one-element list
(with only a logged warning).  Raised errors: parse failure
(`JSONDecodeError`), non-dict shape (`ValueError`), or an empty dict
(`StopIteration` out of `next(iter(...))`). -/
def get_json_list (parse : JsonParse) (jsonData : String) :
    Except String (List JValue) :=
  match parse jsonData with
  | none => Except.error "JSONDecodeError"
  | some v =>
    match v with
    | JValue.jobj [] => Except.error "StopIteration"
    | JValue.jobj ((k, w) :: rest) =>
      match w with
      | JValue.jarr l => Except.ok l
      | _ => Except.ok [JValue.jobj ((k, w) :: rest)]
    | _ => Except.error "The JSON data is not a dictionary."

/-- Key membership test used by the QA-pair validation (`"q" in pair`). -/
def hasKey (fields : List (String × JValue)) (k : String) : Bool :=
  fields.any (fun kv => kv.1 == k)

/-- One step of the validation loop of `generate_qa_pairs`: a pair must be
a dict containing both a `q` and an `a` key. -/
def isQAPair : JValue → Bool
  | JValue.jobj fields => hasKey fields "q" && hasKey fields "a"
  | _ => false

/-- The processing `generate_qa_pairs` applies to the completion service's
response text: run `get_json_list` and validate every pair; any raised
error (parse failure, wrong JSON shape, invalid pair) is caught by the
enclosing `except` clauses and turned into an empty result. -/
def qaPairsOfResponse (parse : JsonParse) (content : String) : List JValue :=
  match get_json_list parse content with
  | Except.error _ => []
  | Except.ok pairs => if pairs.all isQAPair then pairs else []

/-- `QuestionAnswerKB.generate_qa_pairs` (qa_kb.py lines 118-168), with the
completion service modelled as a stream of responses indexed by call
number.  The body issues exactly one `completion(...)` call — there is no
retry loop in the source — and processes that single response; the second
component records the number of completion calls made. -/
def generate_qa_pairs (parse : JsonParse) (responses : Nat → String) :
    List JValue × Nat :=
  (qaPairsOfResponse parse (responses 0), 1)

/-- A Python value passed as an `answer: Any` argument; it is stored via
its `str()` coercion. -/
inductive PyVal where
  | pynone
  | pystr (s : String)
  | pyint (n : Int)
deriving DecidableEq, Repr

/-- Python `str()` on the supported answer values. -/
def pyStr : PyVal → String
  | PyVal.pynone => "None"
  | PyVal.pystr s => s
  | PyVal.pyint n => toString n

/-- `QuestionAnswerKB.update_answer` (qa_kb.py lines 348-386): query the
store for the single nearest document to the question text, with no
metadata filter; if a hit exists, overwrite that document's text with the
queried question and set its answer metadata to the `str()` of the new
answer; otherwise raise `ValueError("Question not found in KB")`. -/
def update_answer (dist : Dist) (store : List Entry) (question : String)
    (newAnswer : PyVal) : Except String (List Entry) :=
  match chromaQuery dist store question 1 none with
  | [] => Except.error "Question not found in KB"
  | e :: _ =>
    Except.ok (store.map (fun x =>
      if x.eid = e.eid then
        { x with doc := question,
                 meta := setAnswer e.meta (MValue.str (pyStr newAnswer)) }
      else x))

/-- The character of a decimal digit. -/
def digitChar (d : Nat) : Char := Char.ofNat (48 + d)

/-- Decimal digit characters of `n`, most significant first, with
recursion fuel. -/
def decAux : Nat → Nat → List Char
  | 0, _ => []
  | fuel + 1, n =>
    if n < 10 then [digitChar n]
    else decAux fuel (n / 10) ++ [digitChar (n % 10)]

/-- Python's decimal formatting of a natural number, as used inside the
f-string `f"qa_{count}_{i}"`. -/
def decRepr (n : Nat) : String := String.mk (decAux (n + 1) n)

/-- The generated document id `f"qa_{count}_{i}"`. -/
def mkId (count i : Nat) : String := "qa_" ++ decRepr count ++ "_" ++ decRepr i

/-- The documents appended by one `add_qa` call for a string question:
the id counter reads the collection size before the insert, because
`collection.add` runs only after the id-building loop. -/
def addDocs (rw : Reword) (store : List Entry) (question : String) (answer : PyVal)
    (metadata : Metadata) (num_rewordings : Nat) : List Entry :=
  (if num_rewordings > 0 then generate_rewordings rw question num_rewordings
   else [question]).enum.map (fun iq =>
    { eid := mkId store.length iq.1, doc := iq.2,
      meta := setAnswer metadata (MValue.str (pyStr answer)) })

/-- `QuestionAnswerKB.add_qa` for a string question (qa_kb.py lines
210-263): set the answer metadata to the `str()` of the answer, select the
question texts (the original plus rewordings when `num_rewordings > 0`),
and append one document per text with id `qa_{collection.count()}_{i}`. -/
def add_qa (rw : Reword) (store : List Entry) (question : String) (answer : PyVal)
    (metadata : Metadata) (num_rewordings : Nat) : List Entry :=
  store ++ addDocs rw store question answer metadata num_rewordings

/-- `QuestionAnswerKB.add_tree_question` (qa_kb.py lines 424-428): mirror a
tree question into the store via `add_qa`, tagged with its tree id; an
absent answer is passed through as Python `None`. -/
def add_tree_question (rw : Reword) (store : List Entry) (question : String)
    (tree_id : Int) (answer : Option String) : List Entry :=
  add_qa rw store question
    (match answer with
     | none => PyVal.pynone
     | some s => PyVal.pystr s)
    [("tree_id", MValue.int tree_id), ("from_tree", MValue.bool true)] 0

/-- One `add_qa` request of a call sequence. -/
structure AddSpec where
  question : String
  answer : PyVal
  metadata : Metadata
  num_rewordings : Nat

/-- A sequence of `add_qa` calls executed in order on one collection by a
single writer with no intervening deletions. -/
def foldAddQa (rw : Reword) (store : List Entry) : List AddSpec → List Entry
  | [] => store
  | s :: rest =>
    foldAddQa rw (add_qa rw store s.question s.answer s.metadata s.num_rewordings) rest

/-- A concrete completion-service oracle producing no rewordings. -/
def rwNone : Reword := fun _ _ => []

/-- A concrete embedding distance: distinct texts are at distance 1,
identical texts at distance 0. -/
def unitDist : Dist := fun q t => if q = t then 0 else 1

/-- Concrete responses for the QA-pair extraction: the first completion
response is malformed, every later one is well-formed. -/
def demoResponses : Nat → String
  | 0 => "malformed response"
  | _ => "good response"

/-- A concrete valid QA pair. -/
def goodQAPair : JValue :=
  JValue.jobj [("q", JValue.jstr "What is the ego?"), ("a", JValue.jstr "A concept.")]

/-- A concrete JSON parser oracle: only the text "good response" parses,
into a dict holding a one-pair list. -/
def demoParse : JsonParse := fun s =>
  if s = "good response" then some (JValue.jobj [("items", JValue.jarr [goodQAPair])])
  else none

/-- A concrete one-entry store used as a counterexample input. -/
def cexStore : List Entry :=
  [⟨"qa_0_0", "What is A?", [("answer", MValue.str "alpha")]⟩]

/-- Modelled from the spec: one question node of the Tree Store (class
`QuestionAnswerTree` of the missing `qa_tree.py`).  `answer = none` means
unanswered (spec section 3); `priority` is the derived ranking score,
recomputed in bulk. -/
structure TreeNode where
  tid : Int
  question : String
  answer : Option String
  parent : Option Int
  priority : Rat
deriving DecidableEq, Repr

/-- Modelled from the spec: the Tree Store's node table, in insertion
order. -/
abbrev Tree := List TreeNode

/-- Modelled from the spec: node lookup by id (`get_question`). -/
def findNode (t : Tree) (i : Int) : Option TreeNode :=
  t.find? (fun n => n.tid == i)

/-- Modelled from the spec: `QuestionAnswerTree.update_answer`, the
overwrite of the answer field of the node with the given id (the
unknown-id `NotFoundError` is handled at the call sites, which look the
id up first). -/
def treeUpdateAnswer (t : Tree) (i : Int) (txt : String) : Tree :=
  t.map (fun n => if n.tid = i then { n with answer := some txt } else n)

/-- Python `str()` of a metadata value, the text pushed into the tree for
a similarity-store answer. -/
def mvalText : MValue → String
  | MValue.str s => s
  | MValue.int n => toString n
  | MValue.bool b => if b then "True" else "False"

/-- `QuestionAnswerKB.get_tree_questions` (qa_kb.py lines 430-433): a
`query` for the empty string filtered to tagged entries, with `n_results`
equal to the full collection count. -/
def get_tree_questions (dist : Dist) (store : List Entry) : List QueryResult :=
  kbQueryFrom dist store store.length (some [("from_tree", MValue.bool true)]) [""]

/-- One loop step of `QuestionAnswerSystem.sync_kb_to_tree` (qa_system.py
lines 44-49) over an accumulated (tree, raised-error) state: read the
entry's tree id (a missing key raises `KeyError`), check `is_answered`
(an unknown id raises the spec-modelled `NotFoundError`, which ends the
loop but keeps the updates made so far), and push the entry's answer via
the tree's `update_answer` only when the node is unanswered.  A
tagged-entry answer is a metadata value and hence never Python `None`, so
the `is not None` guard passes whenever the key is present. -/
def syncKbToTreeStep (acc : Tree × Option String) (r : QueryResult) :
    Tree × Option String :=
  match acc with
  | (t, some err) => (t, some err)
  | (t, none) =>
    match r.metadata.lookup "tree_id" with
    | none => (t, some "KeyError")
    | some (MValue.int tid) =>
      match findNode t tid with
      | none => (t, some "NotFoundError")
      | some n =>
        if n.answer.isSome then (t, none)
        else
          match r.answer with
          | none => (t, some "KeyError")
          | some v => (treeUpdateAnswer t tid (mvalText v), none)
    | some _ => (t, some "NotFoundError")

/-- `QuestionAnswerSystem.sync_kb_to_tree` (qa_system.py lines 44-49): for
every tagged similarity-store entry, push its answer into the Tree Store
when the tree node is currently unanswered; the second component is the
error that aborted the loop, if any. -/
def sync_kb_to_tree (dist : Dist) (store : List Entry) (t : Tree) :
    Tree × Option String :=
  (get_tree_questions dist store).foldl syncKbToTreeStep (t, none)

/-- The frame relation of the `sync_kb_to_tree` pass: node identity,
question, and parent link are unchanged, and a node answered before the
pass keeps exactly its old answer. -/
def keepsAnswered (n m : TreeNode) : Prop :=
  m.tid = n.tid ∧ m.question = n.question ∧ m.parent = n.parent ∧
    (n.answer.isSome → m.answer = n.answer)

/-- Modelled from the spec: the parent link of a node id. -/
def parentOf (t : Tree) (i : Int) : Option Int :=
  match findNode t i with
  | none => none
  | some n => n.parent

/-- Modelled from the spec: node depth, following the parent chain with
recursion fuel (the spec guarantees the chain finite and acyclic;
`depth(root) = 0`). -/
def depthAux (t : Tree) : Nat → Int → Nat
  | 0, _ => 0
  | fuel + 1, i =>
    match parentOf t i with
    | none => 0
    | some p => depthAux t fuel p + 1

/-- Modelled from the spec: the depth of a node. -/
def depth (t : Tree) (i : Int) : Nat := depthAux t t.length i

/-- Modelled from the spec: ancestor test by walking the parent chain. -/
def isAncestorAux (t : Tree) : Nat → Int → Int → Bool
  | 0, _, _ => false
  | fuel + 1, a, i =>
    match parentOf t i with
    | none => false
    | some p => p == a || isAncestorAux t fuel a p

/-- Modelled from the spec: the number of transitive children of a node. -/
def descendantCount (t : Tree) (a : Int) : Nat :=
  (t.filter (fun n => isAncestorAux t t.length a n.tid)).length

/-- Modelled from the spec (section 4.2): the adopted priority score
`(descendant_count + 1) / (depth + 1)`. -/
def priorityScore (t : Tree) (i : Int) : Rat :=
  ((descendantCount t i : Rat) + 1) / ((depth t i : Rat) + 1)

/-- Modelled from the spec: `calculate_priorities` recomputes and stores
the score of every node in one pass. -/
def calculate_priorities (t : Tree) : Tree :=
  t.map (fun n => { n with priority := priorityScore t n.tid })

/-- Modelled from the spec: the ranking order of
`get_high_priority_questions` — descending by priority, ties broken by
ascending id. -/
def rankLE (a b : TreeNode) : Prop :=
  b.priority < a.priority ∨ (a.priority = b.priority ∧ a.tid ≤ b.tid)

instance : DecidableRel rankLE := fun a b =>
  inferInstanceAs (Decidable (b.priority < a.priority ∨
    (a.priority = b.priority ∧ a.tid ≤ b.tid)))

instance : IsTotal TreeNode rankLE where
  total a b := by
    rcases lt_trichotomy a.priority b.priority with h | h | h
    · exact Or.inr (Or.inl h)
    · rcases le_total a.tid b.tid with ht | ht
      · exact Or.inl (Or.inr ⟨h, ht⟩)
      · exact Or.inr (Or.inr ⟨h.symm, ht⟩)
    · exact Or.inl (Or.inl h)

instance : IsTrans TreeNode rankLE where
  trans a b c hab hbc := by
    rcases hab with h1 | ⟨h1, h1'⟩
    · rcases hbc with h2 | ⟨h2, _⟩
      · exact Or.inl (lt_trans h2 h1)
      · exact Or.inl (h2 ▸ h1)
    · rcases hbc with h2 | ⟨h2, h2'⟩
      · exact Or.inl (h1 ▸ h2)
      · exact Or.inr ⟨h1.trans h2, le_trans h1' h2'⟩

/-- Modelled from the spec: `get_high_priority_questions` with `n`
omitted — all nodes ranked descending by priority, ties by ascending
id. -/
def get_high_priority_questions (t : Tree) : Tree :=
  List.insertionSort rankLE t

/-- `QuestionAnswerKB.update_tree_question` (qa_kb.py lines 435-439): find
the single entry nearest to the empty query among those tagged with the
tree id, and, when one exists, push the answer via `update_answer` under
that entry's question text (`update_answer` cannot fail then, since a hit
implies a nonempty collection; the unreachable error branch keeps the
store). -/
def updateTreeQuestion (dist : Dist) (store : List Entry) (tid : Int) (ans : String) :
    List Entry :=
  match kbQueryFrom dist store 1 (some [("tree_id", MValue.int tid)]) [""] with
  | [] => store
  | r :: _ =>
    match update_answer dist store r.question (PyVal.pystr ans) with
    | Except.ok s' => s'
    | Except.error _ => store

/-- Modelled from the spec: `get_answered_questions` of the Tree Store, as
the (id, answer) pairs of the nodes whose answer is not None, in table
order. -/
def answeredPairs (t : Tree) : List (Int × String) :=
  (t.filter (fun n => n.answer.isSome)).map (fun n => (n.tid, n.answer.getD ""))

/-- The store side of `QuestionAnswerSystem.sync_tree_to_kb` (qa_system.py
lines 51-54): one `update_tree_question` per answered node, in order. -/
def syncTreeToKb (dist : Dist) (answered : List (Int × String))
    (store : List Entry) : List Entry :=
  answered.foldl (fun st p => updateTreeQuestion dist st p.1 p.2) store

/-- `QuestionAnswerSystem.sync_tree_to_kb` at system level: the tree is
only read (its answered nodes drive the updates), the similarity store is
updated. -/
def sync_tree_to_kb (dist : Dist) (s : Tree × List Entry) : Tree × List Entry :=
  (s.1, syncTreeToKb dist (answeredPairs s.1) s.2)

/-- One write performed by `update_answer`'s `collection.update`: target
document id, new document text, new metadata dictionary. -/
structure KbWrite where
  weid : String
  wdoc : String
  wmd : Metadata
deriving DecidableEq, Repr

/-- `collection.update(ids=[w.weid], documents=[w.wdoc],
metadatas=[w.wmd])`: overwrite the document with the given id. -/
def applyWrite (store : List Entry) (w : KbWrite) : List Entry :=
  store.map (fun x =>
    if x.eid = w.weid then { x with doc := w.wdoc, meta := w.wmd } else x)

/-- A sequence of writes applied in order. -/
def applyWrites (ws : List KbWrite) (store : List Entry) : List Entry :=
  ws.foldl applyWrite store

/-- The write `update_tree_question` performs on a given store for one
answered node, if any: the pick is the tagged entry nearest to the empty
query, the target is the document nearest to the pick's question text. -/
def writeFor (dist : Dist) (store : List Entry) (p : Int × String) : Option KbWrite :=
  match kbQueryFrom dist store 1 (some [("tree_id", MValue.int p.1)]) [""] with
  | [] => none
  | r :: _ =>
    match chromaQuery dist store r.question 1 none with
    | [] => none
    | e :: _ => some ⟨e.eid, r.question, setAnswer e.meta (MValue.str p.2)⟩

/-- The writes a full `sync_tree_to_kb` pass performs, as computed against
one fixed store. -/
def writesFor (dist : Dist) (store : List Entry) (answered : List (Int × String)) :
    List KbWrite :=
  answered.filterMap (writeFor dist store)

/-- The effect of one write on one entry. -/
def stepEntry (w : KbWrite) (e : Entry) : Entry :=
  if e.eid = w.weid then { e with doc := w.wdoc, meta := w.wmd } else e

/-- The effect of a write sequence on one entry. -/
def foldEntry (ws : List KbWrite) (e : Entry) : Entry :=
  ws.foldl (fun x w => stepEntry w x) e

/-- The last write of a sequence targeting a given document id. -/
def lastMatch (eid : String) : List KbWrite → Option KbWrite
  | [] => none
  | w :: ws =>
    match lastMatch eid ws with
    | some w' => some w'
    | none => if w.weid = eid then some w else none

/-- A metadata dictionary reachable from `m` by at most one answer
overwrite. -/
def MRel (m m' : Metadata) : Prop := m' = m ∨ ∃ v, m' = setAnswer m v

/-- An entry and its evolution under answer writes: same document id,
same document text, metadata differing at most in the answer key. -/
def ERel (e e' : Entry) : Prop :=
  e'.eid = e.eid ∧ e'.doc = e.doc ∧ MRel e.meta e'.meta

/-- Stores equal up to answer-metadata overwrites. -/
def SRel (s t : List Entry) : Prop := List.Forall₂ ERel s t

/-- A concrete tree for the multi-document synchronization example: node 1
answered "fine". -/
def cexTree6 : Tree := [⟨1, "Q1", some "fine", none, 0⟩]

/-- A concrete store with two tagged entries for tree id 1. -/
def cexStore6 : List Entry :=
  [⟨"qa_0_0", "Q1",
     [("tree_id", MValue.int 1), ("from_tree", MValue.bool true),
      ("answer", MValue.str "None")]⟩,
   ⟨"qa_1_0", "Q2",
     [("tree_id", MValue.int 1), ("from_tree", MValue.bool true),
      ("answer", MValue.str "None")]⟩]

/-- Python truthiness of an optional answer text, as tested by the
suggestion filter `not q.answer`. -/
def truthy : Option String → Bool
  | none => false
  | some s => s != ""

/-- `QuestionAnswerSystem.suggest_next_question` (qa_system.py lines
56-78): recompute priorities over the tree, rank all nodes, filter with
Python's `not q.answer` (which treats both a missing answer and an
empty-string answer as unanswered), and return the first remaining node's
id, question, parent and priority. -/
def suggest_next_question (t : Tree) : Option (Int × String × Option Int × Rat) :=
  match (get_high_priority_questions (calculate_priorities t)).filter
      (fun q => !(truthy q.answer)) with
  | [] => none
  | q :: _ => some (q.tid, q.question, q.parent, q.priority)

end QAStore

namespace QAStore

theorem dedupByAnswer_mem {pool : List QueryResult} {seen : List (Option MValue)}
    {r : QueryResult} (h : r ∈ dedupByAnswer pool seen) :
    r.answer ∉ seen ∧
      pool.find? (fun x => decide (x.answer = r.answer)) = some r := by
  induction pool generalizing seen with
  | nil => simp [dedupByAnswer] at h
  | cons p rest ih =>
    by_cases hp : p.answer ∈ seen
    · rw [dedupByAnswer, if_pos hp] at h
      obtain ⟨hns, hf⟩ := ih h
      have hpr : p.answer ≠ r.answer := fun he => hns (he ▸ hp)
      refine ⟨hns, ?_⟩
      rw [List.find?_cons_of_neg _ (by simpa using hpr)]
      exact hf
    · rw [dedupByAnswer, if_neg hp] at h
      rcases List.mem_cons.mp h with heq | hmem
      · subst heq
        exact ⟨hp, List.find?_cons_of_pos _ (by simp)⟩
      · obtain ⟨hns, hf⟩ := ih hmem
        have hpr : p.answer ≠ r.answer := by
          intro he
          exact hns (by simp [he])
        refine ⟨fun hin => hns (List.mem_cons_of_mem _ hin), ?_⟩
        rw [List.find?_cons_of_neg _ (by simpa using hpr)]
        exact hf

theorem dedupByAnswer_pairwise (pool : List QueryResult) (seen : List (Option MValue)) :
    (dedupByAnswer pool seen).Pairwise (fun a b => a.answer ≠ b.answer) := by
  induction pool generalizing seen with
  | nil => simp [dedupByAnswer]
  | cons p rest ih =>
    by_cases hp : p.answer ∈ seen
    · rw [dedupByAnswer, if_pos hp]
      exact ih seen
    · rw [dedupByAnswer, if_neg hp]
      refine List.Pairwise.cons ?_ (ih _)
      intro b hb
      have := (dedupByAnswer_mem hb).1
      intro he
      exact this (by simp [he])

theorem dedupByAnswer_subset {pool : List QueryResult} {seen : List (Option MValue)}
    {r : QueryResult} (h : r ∈ dedupByAnswer pool seen) : r ∈ pool :=
  List.mem_of_find?_eq_some (dedupByAnswer_mem h).2

theorem kbQueryFrom_mem_dedup {dist : Dist} {store : List Entry} {n : Nat}
    {filt : Option Metadata} {questions : List String} {r : QueryResult}
    (h : r ∈ kbQueryFrom dist store n filt questions) :
    r ∈ dedupByAnswer (pooledResults dist store n filt questions) [] := by
  have h1 := (List.take_sublist n _).mem h
  exact (List.perm_insertionSort simGE _).mem_iff.mp h1

/-- C3: every `query()` result list is deduplicated by answer value keeping
only the first-encountered pooled hit for each answer (regardless of which
query string produced it), is sorted descending by similarity score, and
has length at most `n_results`. -/
theorem query_dedups_sorts_and_bounds (dist : Dist) (store : List Entry) (n : Nat)
    (filt : Option Metadata) (questions : List String) :
    (kbQueryFrom dist store n filt questions).length ≤ n ∧
    List.Sorted simGE (kbQueryFrom dist store n filt questions) ∧
    (kbQueryFrom dist store n filt questions).Pairwise
      (fun a b => a.answer ≠ b.answer) ∧
    ∀ r ∈ kbQueryFrom dist store n filt questions,
      (pooledResults dist store n filt questions).find?
        (fun x => decide (x.answer = r.answer)) = some r := by
  refine ⟨?_, ?_, ?_, ?_⟩
  · simp [kbQueryFrom, List.length_take]
  · exact (List.sorted_insertionSort simGE _).sublist (List.take_sublist n _)
  · exact ((dedupByAnswer_pairwise _ _).perm
      (List.perm_insertionSort simGE _).symm (fun hab => (Ne.symm hab))).sublist
      (List.take_sublist n _)
  · intro r hr
    exact (dedupByAnswer_mem (kbQueryFrom_mem_dedup hr)).2

/-- C4 (code bug evaluation): when the caller supplies a list of question
strings and `num_rewordings = 0`, `query()` falls into the final `else`
branch: the query set is the one-element list containing the whole list
object, so a single similarity-store query is issued for the list as a
whole, not one query per supplied string (though indeed no generation step
is invoked). -/
theorem selectQuestions_list_without_rewordings (rw : Reword) :
    selectQuestions rw (QInput.list ["What is X?", "What is Y?"]) 0 =
        [QInput.list ["What is X?", "What is Y?"]] ∧
      (selectQuestions rw (QInput.list ["What is X?", "What is Y?"]) 0).length = 1 ∧
      selectQuestions rw (QInput.list ["What is X?", "What is Y?"]) 0 ≠
        [QInput.str "What is X?", QInput.str "What is Y?"] := by
  refine ⟨rfl, rfl, ?_⟩
  intro h
  simp [selectQuestions] at h

theorem selectNearest_cons_ne_none (f : Entry → Rat) (e : Entry) (rest : List Entry) :
    selectNearest f (e :: rest) ≠ none := by
  simp only [selectNearest]
  cases h : selectNearest f rest with
  | none => simp
  | some p => cases p with | mk m r' => dsimp only; split <;> simp

theorem chromaQuery_one_eq_nil_iff (dist : Dist) (store : List Entry) (q : String) :
    chromaQuery dist store q 1 none = [] ↔ store = [] := by
  cases store with
  | nil => simp [chromaQuery, nearestK, selectNearest]
  | cons e rest =>
    simp only [chromaQuery, nearestK]
    constructor
    · intro h
      cases hs : selectNearest (fun x => dist q x.doc) (e :: rest) with
      | none => exact absurd hs (selectNearest_cons_ne_none _ _ _)
      | some p => rw [hs] at h; cases p; simp at h
    · intro h; cases h

/-- C7 counterexample: with a malformed first completion response,
`generate_qa_pairs` makes exactly one completion call and returns no
pairs, even though the very next response would have parsed into a valid
QA pair — no retry is attempted. -/
theorem generate_qa_pairs_no_retry_cex :
    generate_qa_pairs demoParse demoResponses = ([], 1) ∧
      get_json_list demoParse (demoResponses 1) = Except.ok [goodQAPair] ∧
      isQAPair goodQAPair = true :=
  ⟨rfl, rfl, rfl⟩

/-- C7 (amended): `generate_qa_pairs` issues exactly one completion call —
there is no retry loop — and when that single response fails to parse
(malformed JSON) the error is caught and an empty pair list is returned
rather than raised past the caller. -/
theorem generate_qa_pairs_single_attempt (parse : JsonParse) (responses : Nat → String) :
    (generate_qa_pairs parse responses).2 = 1 ∧
      ∀ e, get_json_list parse (responses 0) = Except.error e →
        (generate_qa_pairs parse responses).1 = [] := by
  refine ⟨rfl, ?_⟩
  intro e he
  simp [generate_qa_pairs, qaPairsOfResponse, he]

/-- Witness for the amended C7 theorem at a concrete oracle and response
stream. -/
theorem generate_qa_pairs_single_attempt_wit :
    (generate_qa_pairs demoParse demoResponses).2 = 1 ∧
      (generate_qa_pairs demoParse demoResponses).1 = [] :=
  ⟨(generate_qa_pairs_single_attempt demoParse demoResponses).1,
   (generate_qa_pairs_single_attempt demoParse demoResponses).2 "JSONDecodeError" rfl⟩

/-- C8 counterexample: the store holds only the question "What is A?", yet
updating the absent question "What is B?" does not fail — the call
succeeds and overwrites the nearest entry, whose document text becomes the
absent question. -/
theorem update_answer_absent_question_cex :
    (∀ e ∈ cexStore, e.doc ≠ "What is B?") ∧
      update_answer unitDist cexStore "What is B?" (PyVal.pystr "beta") =
        Except.ok [⟨"qa_0_0", "What is B?", [("answer", MValue.str "beta")]⟩] := by
  exact ⟨by decide, by rfl⟩

/-- C8 (amended): `update_answer` raises "Question not found in KB" exactly
when the collection is empty (in which case nothing is written and the
store is unchanged); on any nonempty store the call succeeds even when the
question text is absent, updating the nearest entry instead. -/
theorem update_answer_error_iff_empty (dist : Dist) (store : List Entry)
    (question : String) (newAnswer : PyVal) :
    (update_answer dist store question newAnswer =
        Except.error "Question not found in KB" ↔ store = []) ∧
      (store = [] →
        ∀ s', update_answer dist store question newAnswer ≠ Except.ok s') := by
  cases h : chromaQuery dist store question 1 none with
  | nil =>
    have hstore : store = [] := (chromaQuery_one_eq_nil_iff dist store question).mp h
    subst hstore
    constructor
    · simp [update_answer, chromaQuery, nearestK, selectNearest]
    · intro _ s'
      simp [update_answer, chromaQuery, nearestK, selectNearest]
  | cons e tl =>
    have hstore : store ≠ [] := by
      intro hs
      rw [hs] at h
      simp [chromaQuery, nearestK, selectNearest] at h
    constructor
    · simp [update_answer, h, hstore]
    · intro hs; exact absurd hs hstore

/-- Witness for the amended C8 theorem: on the empty store the update
fails with the question-not-found error and no state can be returned. -/
theorem update_answer_error_iff_empty_wit :
    (update_answer unitDist [] "What is B?" (PyVal.pystr "beta") =
        Except.error "Question not found in KB" ↔ ([] : List Entry) = []) ∧
      ∀ s', update_answer unitDist [] "What is B?" (PyVal.pystr "beta") ≠ Except.ok s' :=
  ⟨(update_answer_error_iff_empty unitDist [] "What is B?" (PyVal.pystr "beta")).1,
   (update_answer_error_iff_empty unitDist [] "What is B?" (PyVal.pystr "beta")).2 rfl⟩

/-- C9: every similarity-store entry created by `add_tree_question` stores
its answer metadata as the `str()` coercion of the supplied value; an
unanswered question (`answer = None`) is stored with the literal string
"None", so a tagged entry's answer metadata is a present string value,
never null or absent. -/
theorem add_tree_question_answer_str (rw : Reword) (store : List Entry)
    (question : String) (tree_id : Int) (answer : Option String) :
    ∀ e ∈ add_tree_question rw store question tree_id answer,
      e ∈ store ∨
        e.meta.lookup "answer" =
          some (MValue.str (match answer with | none => "None" | some s => s)) := by
  intro e he
  rcases List.mem_append.mp he with hs | hnew
  · exact Or.inl hs
  · right
    simp only [addDocs] at hnew
    rcases List.mem_map.mp hnew with ⟨iq, _, rfl⟩
    cases answer <;> rfl

/-- Witness for C9 at a concrete unanswered tree question. -/
theorem add_tree_question_answer_str_wit :
    (⟨"qa_0_0", "Q1",
        [("tree_id", MValue.int 1), ("from_tree", MValue.bool true),
         ("answer", MValue.str "None")]⟩ : Entry) ∈ ([] : List Entry) ∨
      ([("tree_id", MValue.int 1), ("from_tree", MValue.bool true),
        ("answer", MValue.str "None")] : Metadata).lookup "answer" =
        some (MValue.str "None") :=
  add_tree_question_answer_str rwNone [] "Q1" 1 none
    ⟨"qa_0_0", "Q1",
      [("tree_id", MValue.int 1), ("from_tree", MValue.bool true),
       ("answer", MValue.str "None")]⟩ (by decide)

theorem digitChar_toNat {d : Nat} (h : d < 10) : (digitChar d).toNat = 48 + d := by
  interval_cases d <;> decide

theorem decAux_no_underscore : ∀ (fuel n : Nat), ∀ c ∈ decAux fuel n, c ≠ '_' := by
  intro fuel
  induction fuel with
  | zero => intro n c hc; simp [decAux] at hc
  | succ fuel ih =>
    intro n c hc
    rw [decAux] at hc
    split at hc
    · next h10 =>
      rcases List.mem_singleton.mp hc with rfl
      intro he
      have h1 : (digitChar n).toNat = 48 + n := digitChar_toNat h10
      have h2 : ('_' : Char).toNat = 95 := by decide
      rw [he, h2] at h1
      omega
    · next h10 =>
      rcases List.mem_append.mp hc with hl | hr
      · exact ih _ c hl
      · rcases List.mem_singleton.mp hr with rfl
        intro he
        have hm : n % 10 < 10 := Nat.mod_lt _ (by omega)
        have h1 : (digitChar (n % 10)).toNat = 48 + n % 10 := digitChar_toNat hm
        have h2 : ('_' : Char).toNat = 95 := by decide
        rw [he, h2] at h1
        omega

/-- Decimal read-back of a digit-character list, inverse of `decAux`. -/
def decVal (cs : List Char) : Nat :=
  cs.foldl (fun acc c => acc * 10 + (c.toNat - 48)) 0

theorem decVal_decAux : ∀ (fuel n : Nat), n < fuel → decVal (decAux fuel n) = n := by
  intro fuel
  induction fuel with
  | zero => intro n h; omega
  | succ fuel ih =>
    intro n h
    rw [decAux]
    split
    · next h10 =>
      simp [decVal, digitChar_toNat h10]
    · next h10 =>
      have hdiv : n / 10 < n := Nat.div_lt_self (by omega) (by omega)
      have hfuel : n / 10 < fuel := by omega
      have hmod : n % 10 < 10 := Nat.mod_lt _ (by omega)
      unfold decVal
      rw [List.foldl_append]
      have hleft : decVal (decAux fuel (n / 10)) = n / 10 := ih _ hfuel
      unfold decVal at hleft
      rw [hleft]
      simp [digitChar_toNat hmod]
      omega

theorem decRepr_inj {m n : Nat} (h : decRepr m = decRepr n) : m = n := by
  have hd : decAux (m + 1) m = decAux (n + 1) n := by
    have := congrArg String.data h
    simpa [decRepr] using this
  have h1 := decVal_decAux (m + 1) m (by omega)
  have h2 := decVal_decAux (n + 1) n (by omega)
  rw [hd, h2] at h1
  omega

theorem append_sep_inj {α : Type} {sep : α} :
    ∀ {a c b d : List α}, sep ∉ a → sep ∉ c →
      a ++ sep :: b = c ++ sep :: d → a = c ∧ b = d := by
  intro a
  induction a with
  | nil =>
    intro c b d _ hc h
    cases c with
    | nil => simpa using h
    | cons y c' =>
      exfalso
      rw [List.nil_append, List.cons_append] at h
      have hy : sep = y := (List.cons.injEq _ _ _ _).mp h |>.1
      exact hc (hy ▸ List.mem_cons_self y c')
  | cons x a' ih =>
    intro c b d ha hc h
    cases c with
    | nil =>
      exfalso
      rw [List.cons_append, List.nil_append] at h
      have hx : x = sep := (List.cons.injEq _ _ _ _).mp h |>.1
      exact ha (hx ▸ List.mem_cons_self x a')
    | cons y c' =>
      rw [List.cons_append, List.cons_append] at h
      obtain ⟨hxy, htail⟩ := (List.cons.injEq _ _ _ _).mp h
      have ha' : sep ∉ a' := fun hm => ha (List.mem_cons_of_mem _ hm)
      have hc' : sep ∉ c' := fun hm => hc (List.mem_cons_of_mem _ hm)
      obtain ⟨h1, h2⟩ := ih ha' hc' htail
      exact ⟨by rw [hxy, h1], h2⟩

theorem mkId_data (C i : Nat) :
    (mkId C i).data =
      'q' :: 'a' :: '_' :: (decAux (C + 1) C ++ '_' :: decAux (i + 1) i) := by
  simp [mkId, decRepr, String.data_append]

theorem mkId_inj {C i C' i' : Nat} (h : mkId C i = mkId C' i') : C = C' ∧ i = i' := by
  have hdata := congrArg String.data h
  rw [mkId_data, mkId_data] at hdata
  simp only [List.cons.injEq, true_and] at hdata
  obtain ⟨hC, hi⟩ := append_sep_inj
    (fun hm => decAux_no_underscore _ _ _ hm rfl)
    (fun hm => decAux_no_underscore _ _ _ hm rfl) hdata
  constructor
  · exact decRepr_inj (congrArg String.mk hC)
  · exact decRepr_inj (congrArg String.mk hi)

theorem mkId_left_inj (L : Nat) : Function.Injective (fun i => mkId L i) := by
  intro i j h
  exact (mkId_inj h).2

theorem addDocs_ids (rw : Reword) (store : List Entry) (q : String) (a : PyVal)
    (md : Metadata) (k : Nat) :
    (addDocs rw store q a md k).map Entry.eid =
      (List.range (if k > 0 then generate_rewordings rw q k else [q]).length).map
        (fun i => mkId store.length i) := by
  unfold addDocs
  rw [List.map_map]
  have h1 : (Entry.eid ∘ fun iq : Nat × String =>
      ({ eid := mkId store.length iq.1, doc := iq.2,
         meta := setAnswer md (MValue.str (pyStr a)) } : Entry)) =
      ((fun i => mkId store.length i) ∘ Prod.fst) := rfl
  rw [h1, ← List.map_map, List.enum_map_fst]

theorem addDocs_mem_eid (rw : Reword) (store : List Entry) (q : String) (a : PyVal)
    (md : Metadata) (k : Nat) {e : Entry}
    (he : e ∈ addDocs rw store q a md k) : ∃ i, e.eid = mkId store.length i := by
  have : e.eid ∈ (addDocs rw store q a md k).map Entry.eid := List.mem_map_of_mem _ he
  rw [addDocs_ids] at this
  rcases List.mem_map.mp this with ⟨i, _, hi⟩
  exact ⟨i, hi.symm⟩

theorem addDocs_ids_nodup (rw : Reword) (store : List Entry) (q : String) (a : PyVal)
    (md : Metadata) (k : Nat) :
    ((addDocs rw store q a md k).map Entry.eid).Nodup := by
  rw [addDocs_ids]
  exact (List.nodup_range _).map (mkId_left_inj store.length)

theorem addDocs_length_pos (rw : Reword) (store : List Entry) (q : String) (a : PyVal)
    (md : Metadata) (k : Nat) : 0 < (addDocs rw store q a md k).length := by
  simp only [addDocs, List.length_map, List.enum_length]
  split
  · simp only [generate_rewordings]
    split <;> simp
  · simp

theorem foldAddQa_prefix (rw : Reword) (specs : List AddSpec) :
    ∀ store : List Entry, ∃ t, foldAddQa rw store specs = store ++ t := by
  induction specs with
  | nil => intro store; exact ⟨[], by simp [foldAddQa]⟩
  | cons s rest ih =>
    intro store
    obtain ⟨t, ht⟩ :=
      ih (add_qa rw store s.question s.answer s.metadata s.num_rewordings)
    refine ⟨addDocs rw store s.question s.answer s.metadata s.num_rewordings ++ t, ?_⟩
    rw [foldAddQa, ht]
    simp [add_qa]

theorem foldAddQa_gen (rw : Reword) (specs : List AddSpec) :
    ∀ store : List Entry,
      (((foldAddQa rw store specs).drop store.length).map Entry.eid).Nodup ∧
      ∀ e ∈ (foldAddQa rw store specs).drop store.length,
        ∃ C i, e.eid = mkId C i ∧ store.length ≤ C := by
  induction specs with
  | nil =>
    intro store
    constructor
    · simp [foldAddQa]
    · intro e he; simp [foldAddQa] at he
  | cons s rest ih =>
    intro store
    have hstep : foldAddQa rw store (s :: rest) =
        foldAddQa rw
          (store ++ addDocs rw store s.question s.answer s.metadata s.num_rewordings)
          rest := by
      rw [foldAddQa, add_qa]
    obtain ⟨t, ht⟩ := foldAddQa_prefix rw rest
      (store ++ addDocs rw store s.question s.answer s.metadata s.num_rewordings)
    obtain ⟨ihn, ihm⟩ :=
      ih (store ++ addDocs rw store s.question s.answer s.metadata s.num_rewordings)
    rw [ht, List.drop_left] at ihn ihm
    have hdrop : (foldAddQa rw store (s :: rest)).drop store.length =
        addDocs rw store s.question s.answer s.metadata s.num_rewordings ++ t := by
      rw [hstep, ht, List.append_assoc, List.drop_left]
    rw [hdrop]
    have hlen : store.length +
        (addDocs rw store s.question s.answer s.metadata s.num_rewordings).length =
        (store ++ addDocs rw store s.question s.answer s.metadata s.num_rewordings).length := by
      simp
    constructor
    · rw [List.map_append, List.nodup_append]
      refine ⟨addDocs_ids_nodup rw store _ _ _ _, ihn, ?_⟩
      intro x hx hx'
      rcases List.mem_map.mp hx with ⟨e, he, rfl⟩
      rcases List.mem_map.mp hx' with ⟨e', he', heq⟩
      obtain ⟨i, hi⟩ := addDocs_mem_eid rw store _ _ _ _ he
      obtain ⟨C, j, hj, hC⟩ := ihm e' he'
      rw [hi] at heq
      rw [hj] at heq
      have := (mkId_inj heq).1
      have hpos := addDocs_length_pos rw store s.question s.answer s.metadata s.num_rewordings
      omega
    · intro e he
      rcases List.mem_append.mp he with hl | hr
      · obtain ⟨i, hi⟩ := addDocs_mem_eid rw store _ _ _ _ hl
        exact ⟨store.length, i, hi, le_refl _⟩
      · obtain ⟨C, j, hj, hC⟩ := ihm e hr
        refine ⟨C, j, hj, ?_⟩
        omega

/-- C10: for every sequence of `add_qa` calls on one collection by a single
writer with no intervening deletions, the generated document ids
(`qa_{collection count}_{position}`) are pairwise distinct, both within
one call and across successive calls, so no generated entry silently
overwrites another. -/
theorem add_qa_generated_ids_nodup (rw : Reword) (store : List Entry)
    (specs : List AddSpec) :
    (((foldAddQa rw store specs).drop store.length).map Entry.eid).Nodup :=
  (foldAddQa_gen rw specs store).1

theorem keepsAnswered_refl (t : Tree) : List.Forall₂ keepsAnswered t t := by
  induction t with
  | nil => exact List.Forall₂.nil
  | cons n rest ih => exact List.Forall₂.cons ⟨rfl, rfl, rfl, fun _ => rfl⟩ ih

theorem keepsAnswered_tid_map {t u : Tree} (h : List.Forall₂ keepsAnswered t u) :
    u.map TreeNode.tid = t.map TreeNode.tid := by
  induction h with
  | nil => rfl
  | cons h1 _ ih => simp [h1.1, ih]

theorem findNode_rel {t u : Tree} (h : List.Forall₂ keepsAnswered t u) (i : Int) :
    (findNode t i = none ∧ findNode u i = none) ∨
      ∃ n m, findNode t i = some n ∧ findNode u i = some m ∧ keepsAnswered n m := by
  induction h with
  | nil => exact Or.inl ⟨rfl, rfl⟩
  | @cons a b ta ub hr _ ih =>
    by_cases hid : a.tid = i
    · right
      refine ⟨a, b, ?_, ?_, hr⟩
      · exact List.find?_cons_of_pos _ (by simp [hid])
      · exact List.find?_cons_of_pos _ (by simp [hr.1, hid])
    · have h1 : findNode (a :: ta) i = findNode ta i :=
        List.find?_cons_of_neg _ (by simp [hid])
      have h2 : findNode (b :: ub) i = findNode ub i :=
        List.find?_cons_of_neg _ (by simp [hr.1, hid])
      rw [h1, h2]
      exact ih

theorem treeUpdateAnswer_of_not_mem {u : Tree} {tid : Int}
    (h : tid ∉ u.map TreeNode.tid) (txt : String) :
    treeUpdateAnswer u tid txt = u := by
  induction u with
  | nil => rfl
  | cons b ub ih =>
    have hb : b.tid ≠ tid := by
      intro he
      exact h (by simp [he])
    have hrest : tid ∉ ub.map TreeNode.tid := fun hm => h (by simp [hm])
    simp only [treeUpdateAnswer, List.map_cons, if_neg hb]
    rw [show List.map (fun n => if n.tid = tid then { n with answer := some txt } else n) ub =
      treeUpdateAnswer ub tid txt from rfl, ih hrest]

theorem treeUpdateAnswer_keeps {t u : Tree} (h : List.Forall₂ keepsAnswered t u)
    (hnodup : (t.map TreeNode.tid).Nodup) {tid : Int} {m : TreeNode}
    (hfind : findNode u tid = some m) (hm : m.answer = none) (txt : String) :
    List.Forall₂ keepsAnswered t (treeUpdateAnswer u tid txt) := by
  induction h with
  | nil => exact List.Forall₂.nil
  | @cons a b ta ub hr hrest ih =>
    by_cases hb : b.tid = tid
    · have hmb : m = b := by
        have : findNode (b :: ub) tid = some b :=
          List.find?_cons_of_pos _ (by simp [hb])
        rw [this] at hfind
        exact (Option.some.injEq _ _).mp hfind.symm
      subst hmb
      have hhead : keepsAnswered a { m with answer := some txt } := by
        refine ⟨hr.1, hr.2.1, hr.2.2.1, ?_⟩
        intro hsome
        have := hr.2.2.2 hsome
        rw [hm] at this
        rw [← this] at hsome
        simp at hsome
      have hta : tid ∉ ta.map TreeNode.tid := by
        have ha : a.tid = tid := by rw [← hr.1, hb]
        intro hmem
        have : (a.tid :: ta.map TreeNode.tid).Nodup := by
          simpa using hnodup
        exact (List.nodup_cons.mp this).1 (ha ▸ hmem)
      have hub : tid ∉ ub.map TreeNode.tid := by
        rw [keepsAnswered_tid_map hrest]
        exact hta
      simp only [treeUpdateAnswer, List.map_cons, if_pos hb]
      rw [show List.map (fun n => if n.tid = tid then { n with answer := some txt } else n) ub =
        treeUpdateAnswer ub tid txt from rfl, treeUpdateAnswer_of_not_mem hub]
      exact List.Forall₂.cons hhead hrest
    · have hfind' : findNode ub tid = some m := by
        have : findNode (b :: ub) tid = findNode ub tid :=
          List.find?_cons_of_neg _ (by simp [hb])
        rw [this] at hfind
        exact hfind
      have hnodup' : (ta.map TreeNode.tid).Nodup := by
        have : (a.tid :: ta.map TreeNode.tid).Nodup := by simpa using hnodup
        exact (List.nodup_cons.mp this).2
      simp only [treeUpdateAnswer, List.map_cons, if_neg hb]
      rw [show List.map (fun n => if n.tid = tid then { n with answer := some txt } else n) ub =
        treeUpdateAnswer ub tid txt from rfl]
      exact List.Forall₂.cons hr (ih hnodup' hfind')

theorem syncStep_keeps {t : Tree} (hnodup : (t.map TreeNode.tid).Nodup)
    (acc : Tree × Option String) (hacc : List.Forall₂ keepsAnswered t acc.1)
    (r : QueryResult) :
    List.Forall₂ keepsAnswered t (syncKbToTreeStep acc r).1 := by
  obtain ⟨u, err⟩ := acc
  cases err with
  | some e => exact hacc
  | none =>
    simp only [syncKbToTreeStep]
    cases hl : r.metadata.lookup "tree_id" with
    | none => exact hacc
    | some v =>
      cases v with
      | str s => exact hacc
      | bool b => exact hacc
      | int tid =>
        dsimp only
        cases hf : findNode u tid with
        | none => exact hacc
        | some n =>
          dsimp only
          by_cases hans : n.answer.isSome
          · rw [if_pos hans]
            exact hacc
          · rw [if_neg hans]
            cases hr : r.answer with
            | none => exact hacc
            | some v' =>
              exact treeUpdateAnswer_keeps hacc hnodup hf
                (Option.not_isSome_iff_eq_none.mp hans) _

theorem syncFold_keeps {t : Tree} (hnodup : (t.map TreeNode.tid).Nodup)
    (rs : List QueryResult) :
    ∀ acc : Tree × Option String, List.Forall₂ keepsAnswered t acc.1 →
      List.Forall₂ keepsAnswered t (rs.foldl syncKbToTreeStep acc).1 := by
  induction rs with
  | nil => intro acc h; exact h
  | cons r rest ih =>
    intro acc h
    exact ih _ (syncStep_keeps hnodup acc h r)

/-- C2: for every tree node answered at the start of the pass,
`sync_kb_to_tree` leaves its answer unchanged (the pass pushes an answer
via the tree's `update_answer` only for nodes found unanswered at that
point of the scan, and only when the tagged entry carries an answer);
node identity, question and parent links are also untouched. -/
theorem sync_kb_to_tree_preserves_answered (dist : Dist) (store : List Entry)
    (t : Tree) (hids : (t.map TreeNode.tid).Nodup) :
    List.Forall₂ keepsAnswered t (sync_kb_to_tree dist store t).1 :=
  syncFold_keeps hids _ _ (keepsAnswered_refl t)

/-- Witness for C2 on a concrete answered tree and a tagged store entry
carrying a different answer for the same node. -/
theorem sync_kb_to_tree_preserves_answered_wit :
    List.Forall₂ keepsAnswered [⟨1, "root", some "kept", none, 0⟩]
      (sync_kb_to_tree unitDist
        [⟨"qa_0_0", "root",
          [("tree_id", MValue.int 1), ("from_tree", MValue.bool true),
           ("answer", MValue.str "other")]⟩]
        [⟨1, "root", some "kept", none, 0⟩]).1 :=
  sync_kb_to_tree_preserves_answered unitDist
    [⟨"qa_0_0", "root",
      [("tree_id", MValue.int 1), ("from_tree", MValue.bool true),
       ("answer", MValue.str "other")]⟩]
    [⟨1, "root", some "kept", none, 0⟩] (by decide)

/-- C5 counterexample: a one-node tree whose node has been explicitly
answered with the empty string — an answered node per the data model —
is still returned by `suggest_next_question`, because the code filters
with Python truthiness (`not q.answer`); the claim instead requires
`None` here, since every node is answered. -/
theorem suggest_returns_empty_string_answered_cex :
    suggest_next_question [⟨1, "q", some "", none, 0⟩] = some (1, "q", none, 1) ∧
      (⟨1, "q", some "", none, 0⟩ : TreeNode).answer.isSome = true := by
  refine ⟨?_, rfl⟩
  norm_num [suggest_next_question, get_high_priority_questions, calculate_priorities,
    priorityScore, descendantCount, depth, depthAux, parentOf, findNode,
    isAncestorAux, truthy, List.insertionSort, List.filter]

theorem rankLE_refl (a : TreeNode) : rankLE a a :=
  Or.inr ⟨rfl, le_refl _⟩

theorem calculate_priorities_truthy (t : Tree) :
    (∀ q ∈ calculate_priorities t, truthy q.answer = true) ↔
      ∀ n ∈ t, truthy n.answer = true := by
  constructor
  · intro h n hn
    have h2 := h _ (List.mem_map_of_mem
      (fun n => { n with priority := priorityScore t n.tid }) hn)
    exact h2
  · intro h q hq
    rcases List.mem_map.mp hq with ⟨n, hn, rfl⟩
    exact h n hn

/-- C5 (amended): `suggest_next_question` returns `none` iff every node's
answer is truthy, i.e. a nonempty text (in particular for the empty
tree); when it returns a suggestion, that suggestion is a node of the
recomputed-priority tree whose answer is falsy (absent or the empty
string) and which ranks at least as high as every other falsy-answer node
under the descending-priority, ascending-id order.  A node answered with
a nonempty string is never returned, but a node whose answer was
explicitly set to the empty string can be. -/
theorem suggest_next_question_spec (t : Tree) :
    (suggest_next_question t = none ↔ ∀ n ∈ t, truthy n.answer = true) ∧
      ∀ out, suggest_next_question t = some out →
        ∃ q ∈ calculate_priorities t, truthy q.answer = false ∧
          out = (q.tid, q.question, q.parent, q.priority) ∧
          ∀ m ∈ calculate_priorities t, truthy m.answer = false → rankLE q m := by
  have hperm : List.Perm (get_high_priority_questions (calculate_priorities t))
      (calculate_priorities t) :=
    List.perm_insertionSort rankLE _
  have hsorted : List.Sorted rankLE (get_high_priority_questions (calculate_priorities t)) :=
    List.sorted_insertionSort rankLE _
  have hfilsorted : List.Sorted rankLE
      ((get_high_priority_questions (calculate_priorities t)).filter
        (fun q => !(truthy q.answer))) :=
    hsorted.sublist (List.filter_sublist _)
  constructor
  · constructor
    · intro hnone
      rw [← calculate_priorities_truthy]
      intro q hq
      cases hfil : (get_high_priority_questions (calculate_priorities t)).filter
          (fun q => !(truthy q.answer)) with
      | nil =>
        have : ∀ x ∈ get_high_priority_questions (calculate_priorities t),
            ¬((fun q => !(truthy q.answer)) x = true) := by
          intro x hx hpx
          have : x ∈ (get_high_priority_questions (calculate_priorities t)).filter
              (fun q => !(truthy q.answer)) := List.mem_filter.mpr ⟨hx, hpx⟩
          rw [hfil] at this
          simp at this
        have hq' : q ∈ get_high_priority_questions (calculate_priorities t) :=
          hperm.mem_iff.mpr hq
        have := this q hq'
        simpa using this
      | cons x rest =>
        rw [suggest_next_question, hfil] at hnone
        simp at hnone
    · intro hall
      rw [suggest_next_question]
      cases hfil : (get_high_priority_questions (calculate_priorities t)).filter
          (fun q => !(truthy q.answer)) with
      | nil => rfl
      | cons x rest =>
        exfalso
        have hx : x ∈ (get_high_priority_questions (calculate_priorities t)).filter
            (fun q => !(truthy q.answer)) := by rw [hfil]; exact List.mem_cons_self x rest
        obtain ⟨hmem, hpx⟩ := List.mem_filter.mp hx
        have : truthy x.answer = true :=
          (calculate_priorities_truthy t).mpr hall x (hperm.mem_iff.mp hmem)
        rw [this] at hpx
        simp at hpx
  · intro out hout
    rw [suggest_next_question] at hout
    cases hfil : (get_high_priority_questions (calculate_priorities t)).filter
        (fun q => !(truthy q.answer)) with
    | nil => rw [hfil] at hout; simp at hout
    | cons q rest =>
      rw [hfil] at hout
      simp only [Option.some.injEq] at hout
      have hq : q ∈ (get_high_priority_questions (calculate_priorities t)).filter
          (fun x => !(truthy x.answer)) := by rw [hfil]; exact List.mem_cons_self q rest
      obtain ⟨hqmem, hqp⟩ := List.mem_filter.mp hq
      refine ⟨q, hperm.mem_iff.mp hqmem, by simpa using hqp, hout.symm, ?_⟩
      intro m hm hmf
      have hmfil : m ∈ (get_high_priority_questions (calculate_priorities t)).filter
          (fun x => !(truthy x.answer)) :=
        List.mem_filter.mpr ⟨hperm.mem_iff.mpr hm, by simp [hmf]⟩
      rw [hfil] at hmfil
      rcases List.mem_cons.mp hmfil with rfl | hmr
      · exact rankLE_refl m
      · have hpair : List.Pairwise rankLE (q :: rest) := by
          rw [← hfil]; exact hfilsorted
        exact (List.pairwise_cons.mp hpair).1 m hmr

/-- Witness for the amended C5 theorem at a concrete one-node unanswered
tree, whose node is returned with priority 1. -/
theorem suggest_next_question_spec_wit :
    ∃ q ∈ calculate_priorities [⟨1, "q", none, none, 0⟩], truthy q.answer = false ∧
      ((1 : Int), "q", (none : Option Int), (1 : Rat)) =
        (q.tid, q.question, q.parent, q.priority) ∧
      ∀ m ∈ calculate_priorities [⟨1, "q", none, none, 0⟩],
        truthy m.answer = false → rankLE q m :=
  (suggest_next_question_spec [⟨1, "q", none, none, 0⟩]).2 (1, "q", none, 1) (by
    norm_num [suggest_next_question, get_high_priority_questions, calculate_priorities,
      priorityScore, descendantCount, depth, depthAux, parentOf, findNode,
      isAncestorAux, truthy, List.insertionSort, List.filter])

/-- C6 counterexample: tree node 1 is answered "fine" and two
similarity-store documents carry `tree_id = 1`; after a successful
`sync_tree_to_kb` pass the second tagged document still carries the stale
answer "None" — not every entry with the node's tree_id carries the
node's answer. -/
theorem sync_tree_to_kb_multi_entry_cex :
    (∃ n ∈ cexTree6, n.tid = 1 ∧ n.answer = some "fine") ∧
      ∃ e ∈ (sync_tree_to_kb unitDist (cexTree6, cexStore6)).2,
        e.meta.lookup "tree_id" = some (MValue.int 1) ∧
        e.meta.lookup "answer" ≠ some (MValue.str "fine") := by
  decide

theorem lookup_cons_md (a k : String) (v : MValue) (l : Metadata) :
    ((k, v) :: l).lookup a = if k = a then some v else l.lookup a := by
  by_cases h : k = a
  · subst h
    simp [List.lookup]
  · have hb : (a == k) = false := beq_eq_false_iff_ne.mpr (fun he => h he.symm)
    simp [List.lookup, hb, h]

theorem lookup_setAnswer_self (m : Metadata) (v : MValue) :
    (setAnswer m v).lookup "answer" = some v := by
  induction m with
  | nil => simp [setAnswer, lookup_cons_md]
  | cons kv rest ih =>
    obtain ⟨k, w⟩ := kv
    by_cases hk : k = "answer"
    · simp [setAnswer, hk, lookup_cons_md]
    · simp [setAnswer, hk, lookup_cons_md, ih]

theorem lookup_setAnswer_ne (m : Metadata) (v : MValue) {k : String}
    (hk : k ≠ "answer") : (setAnswer m v).lookup k = m.lookup k := by
  induction m with
  | nil => simp [setAnswer, lookup_cons_md, Ne.symm hk]
  | cons kv rest ih =>
    obtain ⟨q, w⟩ := kv
    by_cases hq : q = "answer"
    · subst hq
      simp [setAnswer, lookup_cons_md, Ne.symm hk]
    · by_cases hqk : q = k
      · subst hqk
        simp [setAnswer, hq, lookup_cons_md]
      · simp [setAnswer, hq, lookup_cons_md, hqk, ih]

theorem setAnswer_setAnswer (m : Metadata) (v v' : MValue) :
    setAnswer (setAnswer m v') v = setAnswer m v := by
  induction m with
  | nil => simp [setAnswer]
  | cons kv rest ih =>
    obtain ⟨q, w⟩ := kv
    by_cases hq : q = "answer"
    · simp [setAnswer, hq]
    · simp [setAnswer, hq, ih]

theorem mrel_refl (m : Metadata) : MRel m m := Or.inl rfl

theorem mrel_setAnswer {m m' : Metadata} (h : MRel m m') (v : MValue) :
    setAnswer m' v = setAnswer m v := by
  rcases h with rfl | ⟨v', rfl⟩
  · rfl
  · exact setAnswer_setAnswer m v v'

theorem mrel_step {m m' : Metadata} (h : MRel m m') (v : MValue) :
    MRel m (setAnswer m' v) := by
  rw [mrel_setAnswer h v]
  exact Or.inr ⟨v, rfl⟩

theorem mrel_trans {a b c : Metadata} (h1 : MRel a b) (h2 : MRel b c) : MRel a c := by
  rcases h2 with rfl | ⟨v, rfl⟩
  · exact h1
  · exact mrel_step h1 v

theorem mrel_lookup {m m' : Metadata} (h : MRel m m') {k : String}
    (hk : k ≠ "answer") : m'.lookup k = m.lookup k := by
  rcases h with rfl | ⟨v, rfl⟩
  · rfl
  · exact lookup_setAnswer_ne m v hk

theorem erel_refl (e : Entry) : ERel e e := ⟨rfl, rfl, mrel_refl _⟩

theorem srel_refl (s : List Entry) : SRel s s := by
  induction s with
  | nil => exact List.Forall₂.nil
  | cons e rest ih => exact List.Forall₂.cons (erel_refl e) ih

theorem erel_trans {a b c : Entry} (h1 : ERel a b) (h2 : ERel b c) : ERel a c :=
  ⟨h2.1.trans h1.1, h2.2.1.trans h1.2.1, mrel_trans h1.2.2 h2.2.2⟩

theorem srel_trans {a b c : List Entry} (h1 : SRel a b) (h2 : SRel b c) :
    SRel a c := by
  induction h1 generalizing c with
  | nil => cases h2; exact List.Forall₂.nil
  | cons hx _ ih =>
    cases h2 with
    | cons hy hrest' => exact List.Forall₂.cons (erel_trans hx hy) (ih hrest')

theorem srel_eid_map {s t : List Entry} (h : SRel s t) :
    t.map Entry.eid = s.map Entry.eid := by
  induction h with
  | nil => rfl
  | cons h1 _ ih => simp [h1.1, ih]

theorem matchesFilter_congr : ∀ (filt : Metadata),
    (∀ kv ∈ filt, kv.1 ≠ "answer") →
    ∀ {e e' : Entry}, ERel e e' →
      matchesFilter filt e' = matchesFilter filt e := by
  intro filt
  induction filt with
  | nil => intro _ e e' _; rfl
  | cons kv rest ih =>
    intro hf e e' h
    simp only [matchesFilter, List.all_cons]
    rw [mrel_lookup h.2.2 (hf kv (List.mem_cons_self _ _))]
    have h2 := ih (fun x hx => hf x (List.mem_cons_of_mem _ hx)) h
    simp only [matchesFilter] at h2
    rw [h2]

theorem filter_srel {f : Metadata} (hf : ∀ kv ∈ f, kv.1 ≠ "answer")
    {s t : List Entry} (h : SRel s t) :
    SRel (s.filter (matchesFilter f)) (t.filter (matchesFilter f)) := by
  induction h with
  | nil => exact List.Forall₂.nil
  | @cons a b ta ub hab _ ih =>
    rw [List.filter_cons, List.filter_cons, matchesFilter_congr f hf hab]
    by_cases hm : matchesFilter f a = true
    · rw [if_pos hm, if_pos hm]
      exact List.Forall₂.cons hab ih
    · rw [if_neg hm, if_neg hm]
      exact ih

theorem selectNearest_eq_none {f : Entry → Rat} {l : List Entry} :
    selectNearest f l = none ↔ l = [] := by
  cases l with
  | nil => simp [selectNearest]
  | cons e rest =>
    constructor
    · intro h; exact absurd h (selectNearest_cons_ne_none f e rest)
    · intro h; cases h

theorem selectNearest_min {f : Entry → Rat} :
    ∀ {l : List Entry} {m : Entry} {rest : List Entry},
      selectNearest f l = some (m, rest) → ∀ x ∈ l, f m ≤ f x := by
  intro l
  induction l with
  | nil => intro m rest h; cases h
  | cons e tl ih =>
    intro m rest h x hx
    rw [selectNearest] at h
    cases h0 : selectNearest f tl with
    | none =>
      rw [h0] at h
      simp only [Option.some.injEq, Prod.mk.injEq] at h
      obtain ⟨rfl, rfl⟩ := h
      have htl : tl = [] := selectNearest_eq_none.mp h0
      subst htl
      rcases List.mem_singleton.mp hx with rfl
      exact le_refl _
    | some p =>
      obtain ⟨m0, r0⟩ := p
      rw [h0] at h
      dsimp only at h
      by_cases hle : f e ≤ f m0
      · rw [if_pos hle] at h
        simp only [Option.some.injEq, Prod.mk.injEq] at h
        obtain ⟨rfl, rfl⟩ := h
        rcases List.mem_cons.mp hx with rfl | hx'
        · exact le_refl _
        · exact le_trans hle (ih h0 x hx')
      · rw [if_neg hle] at h
        simp only [Option.some.injEq, Prod.mk.injEq] at h
        obtain ⟨rfl, rfl⟩ := h
        rcases List.mem_cons.mp hx with rfl | hx'
        · exact le_of_lt (lt_of_not_le hle)
        · exact ih h0 x hx'

theorem selectNearest_perm {f : Entry → Rat} :
    ∀ {l : List Entry} {m : Entry} {rest : List Entry},
      selectNearest f l = some (m, rest) → List.Perm l (m :: rest) := by
  intro l
  induction l with
  | nil => intro m rest h; cases h
  | cons e tl ih =>
    intro m rest h
    rw [selectNearest] at h
    cases h0 : selectNearest f tl with
    | none =>
      rw [h0] at h
      simp only [Option.some.injEq, Prod.mk.injEq] at h
      obtain ⟨rfl, rfl⟩ := h
      have htl : tl = [] := selectNearest_eq_none.mp h0
      subst htl
      exact List.Perm.refl _
    | some p =>
      obtain ⟨m0, r0⟩ := p
      rw [h0] at h
      dsimp only at h
      by_cases hle : f e ≤ f m0
      · rw [if_pos hle] at h
        simp only [Option.some.injEq, Prod.mk.injEq] at h
        obtain ⟨rfl, rfl⟩ := h
        exact List.Perm.refl _
      · rw [if_neg hle] at h
        simp only [Option.some.injEq, Prod.mk.injEq] at h
        obtain ⟨rfl, rfl⟩ := h
        exact (List.Perm.cons e (ih h0)).trans (List.Perm.swap m0 e r0)

theorem nearestK_mem {f : Entry → Rat} :
    ∀ {n : Nat} {l : List Entry}, ∀ x ∈ nearestK f n l, x ∈ l := by
  intro n
  induction n with
  | zero => intro l x hx; simp [nearestK] at hx
  | succ n ih =>
    intro l x hx
    rw [nearestK] at hx
    cases h0 : selectNearest f l with
    | none => rw [h0] at hx; simp at hx
    | some p =>
      obtain ⟨m, rest⟩ := p
      rw [h0] at hx
      rcases List.mem_cons.mp hx with rfl | hx'
      · exact (selectNearest_perm h0).mem_iff.mpr (List.mem_cons_self _ _)
      · exact (selectNearest_perm h0).mem_iff.mpr
          (List.mem_cons_of_mem _ (ih _ hx'))

theorem selectNearest_rel (dist : Dist) (q : String) :
    ∀ {s t : List Entry}, SRel s t →
      (selectNearest (fun e => dist q e.doc) s = none ∧
        selectNearest (fun e => dist q e.doc) t = none) ∨
      ∃ m rest m' rest',
        selectNearest (fun e => dist q e.doc) s = some (m, rest) ∧
        selectNearest (fun e => dist q e.doc) t = some (m', rest') ∧
        ERel m m' ∧ SRel rest rest' := by
  intro s t h
  induction h with
  | nil => exact Or.inl ⟨rfl, rfl⟩
  | @cons a b ta ub hab hrest ih =>
    right
    rcases ih with ⟨h1, h2⟩ | ⟨m, rest, m', rest', h1, h2, hm, hr⟩
    · refine ⟨a, [], b, [], ?_, ?_, hab, List.Forall₂.nil⟩
      · rw [selectNearest, h1]
      · rw [selectNearest, h2]
    · have hdoc : dist q b.doc = dist q a.doc := by rw [hab.2.1]
      have hmdoc : dist q m'.doc = dist q m.doc := by rw [hm.2.1]
      by_cases hle : dist q a.doc ≤ dist q m.doc
      · refine ⟨a, ta, b, ub, ?_, ?_, hab, hrest⟩
        · rw [selectNearest, h1]
          dsimp only
          rw [if_pos hle]
        · rw [selectNearest, h2]
          dsimp only
          rw [hdoc, hmdoc, if_pos hle]
      · refine ⟨m, a :: rest, m', b :: rest', ?_, ?_, hm, List.Forall₂.cons hab hr⟩
        · rw [selectNearest, h1]
          dsimp only
          rw [if_neg hle]
        · rw [selectNearest, h2]
          dsimp only
          rw [hdoc, hmdoc, if_neg hle]

theorem nearestK_rel (dist : Dist) (q : String) :
    ∀ (n : Nat) {s t : List Entry}, SRel s t →
      SRel (nearestK (fun e => dist q e.doc) n s)
        (nearestK (fun e => dist q e.doc) n t) := by
  intro n
  induction n with
  | zero => intro s t _; exact List.Forall₂.nil
  | succ n ih =>
    intro s t h
    rcases selectNearest_rel dist q h with ⟨h1, h2⟩ | ⟨m, rest, m', rest', h1, h2, hm, hr⟩
    · rw [nearestK, nearestK, h1, h2]
      exact List.Forall₂.nil
    · rw [nearestK, nearestK, h1, h2]
      exact List.Forall₂.cons hm (ih hr)

theorem chromaQuery_rel (dist : Dist) (qtext : String) (n : Nat)
    (filt : Option Metadata)
    (hf : ∀ f ∈ filt, ∀ kv ∈ f, kv.1 ≠ "answer")
    {s t : List Entry} (h : SRel s t) :
    SRel (chromaQuery dist s qtext n filt) (chromaQuery dist t qtext n filt) := by
  cases filt with
  | none => exact nearestK_rel dist qtext n h
  | some f => exact nearestK_rel dist qtext n (filter_srel (hf f rfl) h)

theorem nearestK_one (f : Entry → Rat) (l : List Entry) :
    nearestK f 1 l = [] ∨
      ∃ m rest, selectNearest f l = some (m, rest) ∧ nearestK f 1 l = [m] := by
  cases h : selectNearest f l with
  | none =>
    left
    rw [nearestK, h]
  | some p =>
    obtain ⟨m, rest⟩ := p
    right
    refine ⟨m, rest, rfl, ?_⟩
    rw [nearestK, h]
    rfl

theorem chromaQuery_one_cases (dist : Dist) (s : List Entry) (q : String)
    (filt : Option Metadata) :
    chromaQuery dist s q 1 filt = [] ∨
      ∃ e rest,
        selectNearest (fun x => dist q x.doc)
          (match filt with
           | some f => s.filter (matchesFilter f)
           | none => s) = some (e, rest) ∧
        chromaQuery dist s q 1 filt = [e] :=
  nearestK_one _ _

theorem kbQueryFrom_one (dist : Dist) (s : List Entry) (filt : Option Metadata)
    (q0 : String) :
    kbQueryFrom dist s 1 filt [q0] =
      match chromaQuery dist s q0 1 filt with
      | [] => []
      | e :: _ => [toResult dist q0 e] := by
  rcases chromaQuery_one_cases dist s q0 filt with h | ⟨e, rest, _, h⟩
  · rw [h]
    simp [kbQueryFrom, pooledResults, h]
  · rw [h]
    simp [kbQueryFrom, pooledResults, h, dedupByAnswer, List.insertionSort,
      List.orderedInsert]

theorem pick_question_mem {dist : Dist} {s : List Entry} {filt : Option Metadata}
    {q0 : String} {r : QueryResult} {rs : List QueryResult}
    (h : kbQueryFrom dist s 1 filt [q0] = r :: rs) :
    ∃ x ∈ s, x.doc = r.question := by
  rw [kbQueryFrom_one] at h
  cases h2 : chromaQuery dist s q0 1 filt with
  | nil => rw [h2] at h; cases h
  | cons e tl =>
    rw [h2] at h
    simp only [List.cons.injEq] at h
    obtain ⟨hr, _⟩ := h
    have hmem : e ∈ chromaQuery dist s q0 1 filt := by
      rw [h2]
      exact List.mem_cons_self _ _
    have he : e ∈ (match filt with
        | some f => s.filter (matchesFilter f)
        | none => s) := nearestK_mem _ hmem
    have hes : e ∈ s := by
      cases filt with
      | none => exact he
      | some f => exact List.mem_of_mem_filter he
    refine ⟨e, hes, ?_⟩
    rw [← hr]
    rfl

theorem pick_rel (dist : Dist) (filt : Metadata)
    (hf : ∀ kv ∈ filt, kv.1 ≠ "answer") {s t : List Entry} (h : SRel s t) :
    (kbQueryFrom dist s 1 (some filt) [""] = [] ∧
      kbQueryFrom dist t 1 (some filt) [""] = []) ∨
    ∃ r r' rs rs',
      kbQueryFrom dist s 1 (some filt) [""] = r :: rs ∧
      kbQueryFrom dist t 1 (some filt) [""] = r' :: rs' ∧
      r'.question = r.question := by
  have hc := chromaQuery_rel dist "" 1 (some filt)
    (by intro f hmem kv hkv; cases hmem; exact hf kv hkv) h
  rw [kbQueryFrom_one, kbQueryFrom_one]
  cases hcs : chromaQuery dist s "" 1 (some filt) with
  | nil =>
    rw [hcs] at hc
    have hct : chromaQuery dist t "" 1 (some filt) = [] :=
      List.forall₂_nil_left_iff.mp hc
    rw [hct]
    exact Or.inl ⟨rfl, rfl⟩
  | cons e tl =>
    rw [hcs] at hc
    rcases List.forall₂_cons_left_iff.mp hc with ⟨e', tl', he, _, hct⟩
    rw [hct]
    right
    exact ⟨toResult dist "" e, toResult dist "" e', [], [], rfl, rfl, he.2.1⟩

theorem writeFor_congr (dist : Dist) {s t : List Entry} (h : SRel s t)
    (p : Int × String) : writeFor dist t p = writeFor dist s p := by
  unfold writeFor
  rcases pick_rel dist [("tree_id", MValue.int p.1)]
      (by
        intro kv hkv
        rcases List.mem_singleton.mp hkv with rfl
        dsimp only
        decide) h with ⟨h1, h2⟩ | ⟨r, r', rs, rs', h1, h2, hq⟩
  · rw [h1, h2]
  · rw [h1, h2]
    dsimp only
    rw [hq]
    have hc := chromaQuery_rel dist r.question 1 none
      (by intro f hmem; cases hmem) h
    cases hcs : chromaQuery dist s r.question 1 none with
    | nil =>
      rw [hcs] at hc
      rw [List.forall₂_nil_left_iff.mp hc]
    | cons e tl =>
      rw [hcs] at hc
      rcases List.forall₂_cons_left_iff.mp hc with ⟨e', tl', he, _, hct⟩
      rw [hct]
      dsimp only
      rw [he.1, mrel_setAnswer he.2.2]

theorem update_answer_ok (dist : Dist) {s : List Entry} {Q : String} {e : Entry}
    {tl : List Entry} (h : chromaQuery dist s Q 1 none = e :: tl) (a : PyVal) :
    update_answer dist s Q a =
      Except.ok (applyWrite s ⟨e.eid, Q, setAnswer e.meta (MValue.str (pyStr a))⟩) := by
  rw [update_answer, h]
  rfl

theorem updateTreeQuestion_eq (dist : Dist) (s : List Entry) (tid : Int)
    (ans : String) :
    updateTreeQuestion dist s tid ans =
      match writeFor dist s (tid, ans) with
      | none => s
      | some w => applyWrite s w := by
  unfold updateTreeQuestion writeFor
  cases h1 : kbQueryFrom dist s 1 (some [("tree_id", MValue.int tid)]) [""] with
  | nil => rfl
  | cons r rest =>
    dsimp only
    cases h2 : chromaQuery dist s r.question 1 none with
    | nil =>
      rw [update_answer, h2]
    | cons e tl =>
      rw [update_answer_ok dist h2]
      rfl

theorem chromaQuery_head_doc (dist : Dist) (hiff : ∀ x y, dist x y = 0 ↔ x = y)
    (hnn : ∀ x y, 0 ≤ dist x y) {s : List Entry} {Q : String}
    (hex : ∃ x ∈ s, x.doc = Q) {e : Entry} {tl : List Entry}
    (h : chromaQuery dist s Q 1 none = e :: tl) : e.doc = Q ∧ e ∈ s := by
  rcases chromaQuery_one_cases dist s Q none with h0 | ⟨m, rest, hsel, hres⟩
  · rw [h0] at h
    cases h
  · rw [hres] at h
    simp only [List.cons.injEq] at h
    obtain ⟨rfl, rfl⟩ := h
    obtain ⟨x, hx, hxd⟩ := hex
    have h1 : dist Q m.doc ≤ dist Q x.doc := selectNearest_min hsel x hx
    have h2 : dist Q x.doc = 0 := by
      rw [hxd]
      exact (hiff Q Q).mpr rfl
    have h4 : dist Q m.doc = 0 := le_antisymm (h2 ▸ h1) (hnn _ _)
    refine ⟨((hiff Q m.doc).mp h4).symm, ?_⟩
    exact (selectNearest_perm hsel).mem_iff.mpr (List.mem_cons_self _ _)

theorem mem_eid_unique {s : List Entry} (h : (s.map Entry.eid).Nodup)
    {x e : Entry} (hx : x ∈ s) (he : e ∈ s) (heq : x.eid = e.eid) : x = e :=
  List.inj_on_of_nodup_map h hx he heq

theorem srel_map_of_pointwise {s : List Entry} {g : Entry → Entry}
    (h : ∀ x ∈ s, ERel x (g x)) : SRel s (s.map g) := by
  induction s with
  | nil => exact List.Forall₂.nil
  | cons a ta ih =>
    exact List.Forall₂.cons (h a (List.mem_cons_self _ _))
      (ih (fun x hx => h x (List.mem_cons_of_mem _ hx)))

theorem srel_applyWrite (dist : Dist) (hiff : ∀ x y, dist x y = 0 ↔ x = y)
    (hnn : ∀ x y, 0 ≤ dist x y) {s : List Entry}
    (hid : (s.map Entry.eid).Nodup) {p : Int × String} {w : KbWrite}
    (hw : writeFor dist s p = some w) : SRel s (applyWrite s w) := by
  unfold writeFor at hw
  cases h1 : kbQueryFrom dist s 1 (some [("tree_id", MValue.int p.1)]) [""] with
  | nil =>
    rw [h1] at hw
    cases hw
  | cons r rs =>
    rw [h1] at hw
    dsimp only at hw
    cases h2 : chromaQuery dist s r.question 1 none with
    | nil =>
      rw [h2] at hw
      cases hw
    | cons e tl =>
      rw [h2] at hw
      simp only [Option.some.injEq] at hw
      subst hw
      have hex : ∃ x ∈ s, x.doc = r.question := pick_question_mem h1
      obtain ⟨hedoc, hemem⟩ := chromaQuery_head_doc dist hiff hnn hex h2
      apply srel_map_of_pointwise
      intro x hx
      by_cases hxe : x.eid = e.eid
      · have hxeq : x = e := mem_eid_unique hid hx hemem hxe
        subst hxeq
        rw [if_pos rfl]
        exact ⟨rfl, hedoc.symm, Or.inr ⟨MValue.str p.2, rfl⟩⟩
      · rw [if_neg hxe]
        exact erel_refl x

theorem applyWrite_as_map (s : List Entry) (w : KbWrite) :
    applyWrite s w = s.map (stepEntry w) := rfl

theorem applyWrites_map (ws : List KbWrite) :
    ∀ s : List Entry, applyWrites ws s = s.map (foldEntry ws) := by
  induction ws with
  | nil =>
    intro s
    show s = s.map (fun e => e)
    rw [List.map_id']
  | cons w ws ih =>
    intro s
    show applyWrites ws (applyWrite s w) = _
    rw [ih, applyWrite_as_map, List.map_map]
    rfl

theorem foldEntry_eid (ws : List KbWrite) : ∀ e : Entry, (foldEntry ws e).eid = e.eid := by
  induction ws with
  | nil => intro e; rfl
  | cons w ws ih =>
    intro e
    show (foldEntry ws (stepEntry w e)).eid = e.eid
    rw [ih]
    unfold stepEntry
    by_cases h : e.eid = w.weid
    · rw [if_pos h]
    · rw [if_neg h]

theorem foldEntry_lastMatch (ws : List KbWrite) :
    ∀ e : Entry,
      foldEntry ws e =
        match lastMatch e.eid ws with
        | none => e
        | some w => ⟨e.eid, w.wdoc, w.wmd⟩ := by
  induction ws with
  | nil => intro e; rfl
  | cons w ws ih =>
    intro e
    show foldEntry ws (stepEntry w e) = _
    by_cases h : e.eid = w.weid
    · have hstep : stepEntry w e = ⟨e.eid, w.wdoc, w.wmd⟩ := by
        unfold stepEntry
        rw [if_pos h]
      rw [hstep, ih ⟨e.eid, w.wdoc, w.wmd⟩]
      rw [lastMatch]
      cases hl : lastMatch e.eid ws with
      | some w' => rfl
      | none =>
        rw [if_pos h.symm]
    · have hstep : stepEntry w e = e := by
        unfold stepEntry
        rw [if_neg h]
      rw [hstep, ih e]
      rw [lastMatch]
      cases hl : lastMatch e.eid ws with
      | some w' => rfl
      | none =>
        rw [if_neg (fun hh => h hh.symm)]

theorem foldEntry_idem (ws : List KbWrite) (e : Entry) :
    foldEntry ws (foldEntry ws e) = foldEntry ws e := by
  have h1 := foldEntry_lastMatch ws e
  have h2 := foldEntry_lastMatch ws (foldEntry ws e)
  rw [foldEntry_eid ws e] at h2
  cases hl : lastMatch e.eid ws with
  | none =>
    rw [hl] at h1 h2
    rw [h2, h1]
  | some w =>
    rw [hl] at h1 h2
    rw [h2, h1]

theorem applyWrites_idem (ws : List KbWrite) (s : List Entry) :
    applyWrites ws (applyWrites ws s) = applyWrites ws s := by
  rw [applyWrites_map, applyWrites_map, List.map_map]
  apply List.map_congr_left
  intro x _
  exact foldEntry_idem ws x

theorem filterMap_ext {α β : Type} {f g : α → Option β} :
    ∀ {l : List α}, (∀ a ∈ l, f a = g a) → l.filterMap f = l.filterMap g := by
  intro l
  induction l with
  | nil => intro _; rfl
  | cons a ta ih =>
    intro h
    rw [List.filterMap_cons, List.filterMap_cons, h a (List.mem_cons_self _ _),
      ih (fun x hx => h x (List.mem_cons_of_mem _ hx))]

theorem syncTreeToKb_cons (dist : Dist) (p : Int × String)
    (rest : List (Int × String)) (s : List Entry) :
    syncTreeToKb dist (p :: rest) s =
      syncTreeToKb dist rest (updateTreeQuestion dist s p.1 p.2) := rfl

theorem srel_updateTreeQuestion (dist : Dist) (hiff : ∀ x y, dist x y = 0 ↔ x = y)
    (hnn : ∀ x y, 0 ≤ dist x y) {s : List Entry}
    (hid : (s.map Entry.eid).Nodup) (p : Int × String) :
    SRel s (updateTreeQuestion dist s p.1 p.2) := by
  rw [updateTreeQuestion_eq]
  cases hw : writeFor dist s (p.1, p.2) with
  | none => exact srel_refl s
  | some w => exact srel_applyWrite dist hiff hnn hid hw

theorem syncTreeToKb_factor (dist : Dist) (hiff : ∀ x y, dist x y = 0 ↔ x = y)
    (hnn : ∀ x y, 0 ≤ dist x y) :
    ∀ (answered : List (Int × String)) (s : List Entry),
      (s.map Entry.eid).Nodup →
      syncTreeToKb dist answered s = applyWrites (writesFor dist s answered) s := by
  intro answered
  induction answered with
  | nil => intro s _; rfl
  | cons p rest ih =>
    intro s hid
    rw [syncTreeToKb_cons]
    have hsrel : SRel s (updateTreeQuestion dist s p.1 p.2) :=
      srel_updateTreeQuestion dist hiff hnn hid p
    have hid' : ((updateTreeQuestion dist s p.1 p.2).map Entry.eid).Nodup := by
      rw [srel_eid_map hsrel]
      exact hid
    rw [ih _ hid']
    have hcongr : writesFor dist (updateTreeQuestion dist s p.1 p.2) rest =
        writesFor dist s rest :=
      filterMap_ext (fun q _ => writeFor_congr dist hsrel q)
    rw [hcongr]
    show applyWrites (writesFor dist s rest) (updateTreeQuestion dist s p.1 p.2) =
      applyWrites (writesFor dist s (p :: rest)) s
    rw [updateTreeQuestion_eq]
    unfold writesFor
    rw [List.filterMap_cons]
    cases hw : writeFor dist s p with
    | none => rfl
    | some w => rfl

theorem syncTreeToKb_srel (dist : Dist) (hiff : ∀ x y, dist x y = 0 ↔ x = y)
    (hnn : ∀ x y, 0 ≤ dist x y) :
    ∀ (answered : List (Int × String)) (s : List Entry),
      (s.map Entry.eid).Nodup → SRel s (syncTreeToKb dist answered s) := by
  intro answered
  induction answered with
  | nil => intro s _; exact srel_refl s
  | cons p rest ih =>
    intro s hid
    rw [syncTreeToKb_cons]
    have h1 : SRel s (updateTreeQuestion dist s p.1 p.2) :=
      srel_updateTreeQuestion dist hiff hnn hid p
    have hid' : ((updateTreeQuestion dist s p.1 p.2).map Entry.eid).Nodup := by
      rw [srel_eid_map h1]
      exact hid
    exact srel_trans h1 (ih _ hid')

/-- C1: with a deterministic similarity store whose embedding separates
texts (distance zero exactly on equal texts, distances nonnegative) and
pairwise-distinct document ids, running `sync_tree_to_kb()` twice in a row
with no intervening mutation produces identical mirrored state after each
run: the second run changes neither the similarity store nor the tree. -/
theorem sync_tree_to_kb_idempotent (dist : Dist)
    (hiff : ∀ x y, dist x y = 0 ↔ x = y) (hnn : ∀ x y, 0 ≤ dist x y)
    (t : Tree) (store : List Entry) (hid : (store.map Entry.eid).Nodup) :
    sync_tree_to_kb dist (sync_tree_to_kb dist (t, store)) =
      sync_tree_to_kb dist (t, store) := by
  show (t, syncTreeToKb dist (answeredPairs t)
      (syncTreeToKb dist (answeredPairs t) store)) =
    (t, syncTreeToKb dist (answeredPairs t) store)
  have hsrel := syncTreeToKb_srel dist hiff hnn (answeredPairs t) store hid
  have hid1 : ((syncTreeToKb dist (answeredPairs t) store).map Entry.eid).Nodup := by
    rw [srel_eid_map hsrel]
    exact hid
  rw [syncTreeToKb_factor dist hiff hnn (answeredPairs t) _ hid1]
  have hwcongr : writesFor dist (syncTreeToKb dist (answeredPairs t) store)
      (answeredPairs t) = writesFor dist store (answeredPairs t) :=
    filterMap_ext (fun q _ => writeFor_congr dist hsrel q)
  rw [hwcongr]
  rw [syncTreeToKb_factor dist hiff hnn (answeredPairs t) store hid]
  rw [applyWrites_idem]

/-- Witness for C1 at a concrete discriminating distance, a one-node
answered tree and a store holding one tagged document. -/
theorem sync_tree_to_kb_idempotent_wit :
    sync_tree_to_kb unitDist
        (sync_tree_to_kb unitDist (cexTree6, [⟨"qa_0_0", "Q1",
          [("tree_id", MValue.int 1), ("from_tree", MValue.bool true),
           ("answer", MValue.str "None")]⟩])) =
      sync_tree_to_kb unitDist (cexTree6, [⟨"qa_0_0", "Q1",
        [("tree_id", MValue.int 1), ("from_tree", MValue.bool true),
         ("answer", MValue.str "None")]⟩]) :=
  sync_tree_to_kb_idempotent unitDist
    (by
      intro x y
      by_cases h : x = y <;> simp [unitDist, h])
    (by
      intro x y
      by_cases h : x = y <;> simp [unitDist, h])
    cexTree6 _ (by decide)

theorem matchesFilter_singleton {k : String} {v : MValue} {e : Entry} :
    matchesFilter [(k, v)] e = true ↔ e.meta.lookup k = some v := by
  simp [matchesFilter]

theorem mem_doc_unique {s : List Entry} (h : (s.map Entry.doc).Nodup)
    {x e : Entry} (hx : x ∈ s) (he : e ∈ s) (heq : x.doc = e.doc) : x = e :=
  List.inj_on_of_nodup_map h hx he heq

theorem lastMatch_mem {eid : String} :
    ∀ {l : List KbWrite} {w : KbWrite},
      lastMatch eid l = some w → w ∈ l ∧ w.weid = eid := by
  intro l
  induction l with
  | nil => intro w h; cases h
  | cons w0 l' ih =>
    intro w h
    rw [lastMatch] at h
    cases hl : lastMatch eid l' with
    | some w'' =>
      rw [hl] at h
      simp only [Option.some.injEq] at h
      subst h
      obtain ⟨hm, he⟩ := ih hl
      exact ⟨List.mem_cons_of_mem _ hm, he⟩
    | none =>
      rw [hl] at h
      by_cases h0 : w0.weid = eid
      · rw [if_pos h0] at h
        simp only [Option.some.injEq] at h
        subst h
        exact ⟨List.mem_cons_self _ _, h0⟩
      · rw [if_neg h0] at h
        cases h

theorem lastMatch_of_mem {eid : String} :
    ∀ {l : List KbWrite} {w : KbWrite}, w ∈ l → w.weid = eid →
      (∀ w' ∈ l, w'.weid = eid → w' = w) → lastMatch eid l = some w := by
  intro l
  induction l with
  | nil => intro w hw _ _; cases hw
  | cons w0 l' ih =>
    intro w hw heid huniq
    rw [lastMatch]
    rcases List.mem_cons.mp hw with rfl | hmem
    · cases hl : lastMatch eid l' with
      | some w'' =>
        obtain ⟨hm, he⟩ := lastMatch_mem hl
        rw [huniq w'' (List.mem_cons_of_mem _ hm) he]
      | none =>
        rw [if_pos heid]
    · have hres : lastMatch eid l' = some w :=
        ih hmem heid (fun w' hw' he' => huniq w' (List.mem_cons_of_mem _ hw') he')
      rw [hres]

theorem writeFor_some_tagged {dist : Dist} {s : List Entry} {p : Int × String}
    {w : KbWrite} (hw : writeFor dist s p = some w) :
    ∃ x ∈ s, matchesFilter [("tree_id", MValue.int p.1)] x = true := by
  unfold writeFor at hw
  cases h1 : kbQueryFrom dist s 1 (some [("tree_id", MValue.int p.1)]) [""] with
  | nil =>
    rw [h1] at hw
    cases hw
  | cons r rs =>
    rw [kbQueryFrom_one] at h1
    cases h2 : chromaQuery dist s "" 1 (some [("tree_id", MValue.int p.1)]) with
    | nil =>
      rw [h2] at h1
      cases h1
    | cons e0 tl =>
      have hmem : e0 ∈ chromaQuery dist s "" 1
          (some [("tree_id", MValue.int p.1)]) := by
        rw [h2]
        exact List.mem_cons_self _ _
      have hef : e0 ∈ s.filter (matchesFilter [("tree_id", MValue.int p.1)]) :=
        nearestK_mem _ hmem
      obtain ⟨hes, hf⟩ := List.mem_filter.mp hef
      exact ⟨e0, hes, hf⟩

theorem writeFor_of_tagged (dist : Dist) (hiff : ∀ x y, dist x y = 0 ↔ x = y)
    (hnn : ∀ x y, 0 ≤ dist x y) {s : List Entry}
    (hdoc : (s.map Entry.doc).Nodup) {tid : Int}
    (hex : ∃ x ∈ s, matchesFilter [("tree_id", MValue.int tid)] x = true)
    (ans : String) :
    ∃ e0 ∈ s, e0.meta.lookup "tree_id" = some (MValue.int tid) ∧
      writeFor dist s (tid, ans) =
        some ⟨e0.eid, e0.doc, setAnswer e0.meta (MValue.str ans)⟩ := by
  obtain ⟨x, hx, hxf⟩ := hex
  have hxfil : x ∈ s.filter (matchesFilter [("tree_id", MValue.int tid)]) :=
    List.mem_filter.mpr ⟨hx, hxf⟩
  have hfil : s.filter (matchesFilter [("tree_id", MValue.int tid)]) ≠ [] := by
    intro hnil
    rw [hnil] at hxfil
    cases hxfil
  cases hsel : selectNearest (fun e => dist "" e.doc)
      (s.filter (matchesFilter [("tree_id", MValue.int tid)])) with
  | none => exact absurd (selectNearest_eq_none.mp hsel) hfil
  | some pr =>
    obtain ⟨e0, rest0⟩ := pr
    have he0fil : e0 ∈ s.filter (matchesFilter [("tree_id", MValue.int tid)]) :=
      (selectNearest_perm hsel).mem_iff.mpr (List.mem_cons_self _ _)
    obtain ⟨he0s, he0f⟩ := List.mem_filter.mp he0fil
    have he0look : e0.meta.lookup "tree_id" = some (MValue.int tid) :=
      matchesFilter_singleton.mp he0f
    have hchroma : chromaQuery dist s "" 1
        (some [("tree_id", MValue.int tid)]) = [e0] := by
      show nearestK (fun e => dist "" e.doc) 1
        (s.filter (matchesFilter [("tree_id", MValue.int tid)])) = [e0]
      rw [nearestK, hsel]
      rfl
    have hpick : kbQueryFrom dist s 1 (some [("tree_id", MValue.int tid)]) [""] =
        [toResult dist "" e0] := by
      rw [kbQueryFrom_one, hchroma]
    have hq : (toResult dist "" e0).question = e0.doc := rfl
    cases hch2 : chromaQuery dist s e0.doc 1 none with
    | nil =>
      exfalso
      rcases chromaQuery_one_cases dist s e0.doc none with h0 | ⟨m, r2, hsel2, hres2⟩
      · have : selectNearest (fun e => dist e0.doc e.doc) s = none := by
          cases hsel3 : selectNearest (fun e => dist e0.doc e.doc) s with
          | none => rfl
          | some pr3 =>
            obtain ⟨m3, r3⟩ := pr3
            have : chromaQuery dist s e0.doc 1 none = [m3] := by
              show nearestK (fun e => dist e0.doc e.doc) 1 s = [m3]
              rw [nearestK, hsel3]
              rfl
            rw [this] at h0
            cases h0
        have hs : s = [] := selectNearest_eq_none.mp this
        rw [hs] at he0s
        cases he0s
      · rw [hres2] at hch2
        cases hch2
    | cons e tl =>
      have hex2 : ∃ y ∈ s, y.doc = e0.doc := ⟨e0, he0s, rfl⟩
      obtain ⟨hedoc, hemem⟩ := chromaQuery_head_doc dist hiff hnn hex2 hch2
      have heeq : e = e0 := mem_doc_unique hdoc hemem he0s hedoc
      subst heeq
      refine ⟨e, he0s, he0look, ?_⟩
      unfold writeFor
      rw [hpick]
      dsimp only
      rw [hq, hch2]

/-- C6 (amended): with a deterministic store (distance zero exactly on
equal texts, nonnegative), pairwise-distinct document ids and texts, and
pairwise-distinct answered node ids, a successful `sync_tree_to_kb()` pass
guarantees for every answered node having at least one tagged entry that
the selected tagged entry for its tree_id carries the node's answer —
some tagged entry with that tree_id carries the answer, but when multiple
documents map to one tree_id, the pass updates only the one selected
entry and the others may keep a stale answer value. -/
theorem sync_tree_to_kb_updates_selected_entry (dist : Dist)
    (hiff : ∀ x y, dist x y = 0 ↔ x = y) (hnn : ∀ x y, 0 ≤ dist x y)
    (t : Tree) (store : List Entry)
    (hid : (store.map Entry.eid).Nodup) (hdoc : (store.map Entry.doc).Nodup)
    (htid : ((answeredPairs t).map Prod.fst).Nodup) :
    ∀ p ∈ answeredPairs t,
      (∃ x ∈ store, matchesFilter [("tree_id", MValue.int p.1)] x = true) →
      ∃ e ∈ (sync_tree_to_kb dist (t, store)).2,
        e.meta.lookup "tree_id" = some (MValue.int p.1) ∧
        e.meta.lookup "answer" = some (MValue.str p.2) := by
  intro p hp hex
  obtain ⟨e0, he0s, he0look, hwf⟩ :=
    writeFor_of_tagged dist hiff hnn hdoc hex p.2
  have hfactor : syncTreeToKb dist (answeredPairs t) store =
      applyWrites (writesFor dist store (answeredPairs t)) store :=
    syncTreeToKb_factor dist hiff hnn (answeredPairs t) store hid
  have hwmem : (⟨e0.eid, e0.doc, setAnswer e0.meta (MValue.str p.2)⟩ : KbWrite) ∈
      writesFor dist store (answeredPairs t) := by
    rw [writesFor, List.mem_filterMap]
    exact ⟨p, hp, by rw [show writeFor dist store p = writeFor dist store (p.1, p.2)
      from rfl, hwf]⟩
  have huniq : ∀ w' ∈ writesFor dist store (answeredPairs t),
      w'.weid = e0.eid → w' = ⟨e0.eid, e0.doc, setAnswer e0.meta (MValue.str p.2)⟩ := by
    intro w' hw' heid'
    rw [writesFor, List.mem_filterMap] at hw'
    obtain ⟨p', hp', hwf'⟩ := hw'
    by_cases hfst : p'.1 = p.1
    · have hpp : p' = p :=
        List.inj_on_of_nodup_map htid hp' hp hfst
      rw [hpp] at hwf'
      rw [show writeFor dist store p = writeFor dist store (p.1, p.2) from rfl, hwf]
        at hwf'
      simp only [Option.some.injEq] at hwf'
      exact hwf'.symm
    · exfalso
      have hex' : ∃ x ∈ store,
          matchesFilter [("tree_id", MValue.int p'.1)] x = true :=
        writeFor_some_tagged hwf'
      obtain ⟨e1, he1s, he1look, hwf1⟩ :=
        writeFor_of_tagged dist hiff hnn hdoc hex' p'.2
      rw [show writeFor dist store p' = writeFor dist store (p'.1, p'.2) from rfl,
        hwf1] at hwf'
      simp only [Option.some.injEq] at hwf'
      rw [← hwf'] at heid'
      have he1e0 : e1 = e0 := mem_eid_unique hid he1s he0s heid'
      rw [he1e0, he0look] at he1look
      simp only [Option.some.injEq, MValue.int.injEq] at he1look
      exact hfst he1look.symm
  show ∃ e ∈ syncTreeToKb dist (answeredPairs t) store, _
  rw [hfactor, applyWrites_map]
  refine ⟨foldEntry (writesFor dist store (answeredPairs t)) e0,
    List.mem_map_of_mem _ he0s, ?_⟩
  have hfold := foldEntry_lastMatch (writesFor dist store (answeredPairs t)) e0
  have hlast : lastMatch e0.eid (writesFor dist store (answeredPairs t)) =
      some ⟨e0.eid, e0.doc, setAnswer e0.meta (MValue.str p.2)⟩ :=
    lastMatch_of_mem hwmem rfl huniq
  rw [hlast] at hfold
  rw [hfold]
  constructor
  · show (setAnswer e0.meta (MValue.str p.2)).lookup "tree_id" = _
    rw [lookup_setAnswer_ne _ _ (by decide)]
    exact he0look
  · exact lookup_setAnswer_self _ _

/-- Witness for the amended C6 theorem at a concrete one-node answered
tree and a store holding a single tagged document. -/
theorem sync_tree_to_kb_updates_selected_entry_wit :
    ∃ e ∈ (sync_tree_to_kb unitDist (cexTree6, [⟨"qa_0_0", "Q1",
        [("tree_id", MValue.int 1), ("from_tree", MValue.bool true),
         ("answer", MValue.str "None")]⟩])).2,
      e.meta.lookup "tree_id" = some (MValue.int 1) ∧
      e.meta.lookup "answer" = some (MValue.str "fine") :=
  sync_tree_to_kb_updates_selected_entry unitDist
    (by
      intro x y
      by_cases h : x = y <;> simp [unitDist, h])
    (by
      intro x y
      by_cases h : x = y <;> simp [unitDist, h])
    cexTree6 _ (by decide) (by decide) (by decide)
    (1, "fine") (by decide) (by decide)

end QAStore
